/-
Verification of the radicle-surf diff core: the tree differ
(`src/radicle-surf/src/diff.rs`) and the git content-diff adapter
(`src/radicle-surf/src/diff/git.rs`), as a shallow embedding in Lean 4.
-/
import Mathlib

namespace RadicleSurf

/-! ## Core diff data model, from `src/radicle-surf/src/diff.rs` -/

/-- The content of a single line (`Line(Vec<u8>)` in the source). -/
structure Line where
  bytes : List Nat
deriving Repr, DecidableEq

/-- Single line delta (`LineDiff` in `diff.rs`). -/
inductive LineDiff where
  | addition (line : Line) (lineNum : Nat)
  | deletion (line : Line) (lineNum : Nat)
  | context (line : Line) (lineNumOld : Nat) (lineNumNew : Nat)
deriving Repr, DecidableEq

/-- A set of line changes (`Hunk` in `diff.rs`). -/
structure Hunk where
  header : Line
  lines : List LineDiff
deriving Repr, DecidableEq

/-- `Hunks(Vec<Hunk>)` in `diff.rs`. -/
abbrev Hunks := List Hunk

/-- A set of changes belonging to one file (`FileDiff` in `diff.rs`). -/
inductive FileDiff where
  | binary
  | plain (hunks : Hunks)
deriving Repr, DecidableEq

/-- End-of-file newline anomaly (`EofNewLine` in `diff.rs`, three variants). -/
inductive EofNewLine where
  | oldMissing
  | newMissing
  | bothMissing
deriving Repr, DecidableEq

/-- Modelled from the spec: labels of file-system entries (`Label` in the
`file_system` module, which is not part of the given sources). -/
abbrev Label := String

/-- Modelled from the spec: a path is the ordered list of labels from the
root to an entry (`Path` in the missing `file_system` module); `push`
appends a label at the end. -/
abbrev Path := List Label

structure CreateFile where
  path : Path
  diff : FileDiff
deriving Repr, DecidableEq

structure DeleteFile where
  path : Path
  diff : FileDiff
deriving Repr, DecidableEq

structure MoveFile where
  oldPath : Path
  newPath : Path
deriving Repr, DecidableEq

structure CopyFile where
  oldPath : Path
  newPath : Path
deriving Repr, DecidableEq

structure ModifiedFile where
  path : Path
  diff : FileDiff
  eof : Option EofNewLine
deriving Repr, DecidableEq

/-- The diff aggregate (`Diff` in `diff.rs`): five ordered sequences. -/
structure Diff where
  created : List CreateFile
  deleted : List DeleteFile
  moved : List MoveFile
  copied : List CopyFile
  modified : List ModifiedFile
deriving Repr, DecidableEq

/-- `Diff::new()`. -/
def Diff.empty : Diff := ⟨[], [], [], [], []⟩

/-- Componentwise concatenation; the pure counterpart of pushing a batch of
entries onto the mutable `Diff` accumulator. -/
def Diff.app (a b : Diff) : Diff :=
  ⟨a.created ++ b.created, a.deleted ++ b.deleted, a.moved ++ b.moved,
   a.copied ++ b.copied, a.modified ++ b.modified⟩

/-- Statistics describing a particular diff (`Stats` in `diff.rs`). -/
structure Stats where
  filesChanged : Nat
  insertions : Nat
  deletions : Nat
deriving Repr, DecidableEq

def LineDiff.isAddition : LineDiff → Bool
  | .addition _ _ => true
  | _ => false

def LineDiff.isDeletion : LineDiff → Bool
  | .deletion _ _ => true
  | _ => false

/-- Number of `Addition` lines in the hunks of a `FileDiff` (`Binary`
contributes nothing), as counted by the loops of `Diff::stats`. -/
def FileDiff.additions : FileDiff → Nat
  | .binary => 0
  | .plain hunks => (hunks.map (fun h => h.lines.countP (fun l => l.isAddition))).sum

/-- Number of `Deletion` lines in the hunks of a `FileDiff`. -/
def FileDiff.deletions : FileDiff → Nat
  | .binary => 0
  | .plain hunks => (hunks.map (fun h => h.lines.countP (fun l => l.isDeletion))).sum

/-- `Diff::stats` from `diff.rs` lines 551-598: modified files contribute
their `Addition` lines to `insertions` and their `Deletion` lines to
`deletions`; created files contribute only `Addition` lines to
`insertions`; deleted files contribute only `Deletion` lines to
`deletions`; `files_changed` is `modified.len() + created.len() +
deleted.len()`. -/
def Diff.stats (d : Diff) : Stats :=
  { filesChanged := d.modified.length + d.created.length + d.deleted.length
  , insertions := (d.modified.map (fun f => f.diff.additions)).sum
      + (d.created.map (fun f => f.diff.additions)).sum
  , deletions := (d.modified.map (fun f => f.diff.deletions)).sum
      + (d.deleted.map (fun f => f.diff.deletions)).sum }

/-! ## Snapshot model

Modelled from the spec (§6): the `file_system` module with `Directory`,
`DirectoryContents` and `File` is not part of the given sources; an entry
is exactly one of `File{name, size, content_checksum}` or
`Directory{name, nested snapshot}`, and entries are ordered by name. -/

/-- Modelled from the spec: a file carries a size and a content checksum. -/
structure File where
  size : Nat
  checksum : Nat
deriving Repr, DecidableEq

/-- Modelled from the spec: one entry of a directory snapshot, either a
named file or a named nested directory (`DirectoryContents` in the missing
`file_system` module). -/
inductive DirectoryContents where
  | file (name : Label) (f : File)
  | directory (current : Label) (contents : List DirectoryContents)

/-- Modelled from the spec: a directory snapshot has its own label
(`Directory::current()`) and an ordered list of entries. -/
structure Directory where
  current : Label
  contents : List DirectoryContents

/-- `DirectoryContents::label()`: the name of an entry (a directory entry's
label is the directory's own `current` label). -/
def DirectoryContents.label : DirectoryContents → Label
  | .file name _ => name
  | .directory current _ => current

/-- `Diff::collect_files_inner`: push the directory's label, walk its
entries collecting the path of every file (recursing into
subdirectories), pop on return.  In this pure form the pushed prefix is
the first argument. -/
def collectFilesInnerList (q : Path) : List DirectoryContents → List Path
  | [] => []
  | .file name _ :: es => (q ++ [name]) :: collectFilesInnerList q es
  | .directory cur cs :: es =>
      collectFilesInnerList (q ++ [cur]) cs ++ collectFilesInnerList q es

/-- `Diff::collect_files_from_entry`: a file entry yields its own path; a
directory entry yields the paths of all files beneath it. -/
def collectFilesFromEntry (e : DirectoryContents) (parent : Path) : List Path :=
  match e with
  | .file name _ => [parent ++ [name]]
  | .directory cur cs => collectFilesInnerList (parent ++ [cur]) cs

/-- `Diff::add_created_files`: one `CreateFile` with an empty `Plain` diff
per file beneath the entry. -/
def addCreatedFiles (e : DirectoryContents) (parent : Path) : List CreateFile :=
  (collectFilesFromEntry e parent).map (fun p => ⟨p, .plain []⟩)

/-- `Diff::add_deleted_files`: one `DeleteFile` with an empty `Plain` diff
per file beneath the entry. -/
def addDeletedFiles (e : DirectoryContents) (parent : Path) : List DeleteFile :=
  (collectFilesFromEntry e parent).map (fun p => ⟨p, .plain []⟩)

/-- The diff contribution that records an entry (and its subtree) as
deleted. -/
def deletedEntryD (e : DirectoryContents) (parent : Path) : Diff :=
  { Diff.empty with deleted := addDeletedFiles e parent }

/-- The diff contribution that records an entry (and its subtree) as
created. -/
def createdEntryD (e : DirectoryContents) (parent : Path) : Diff :=
  { Diff.empty with created := addCreatedFiles e parent }

/-- `Diff::collect_diff` from `diff.rs` lines 315-431: a linear merge-join
over the two (pre-sorted) entry lists.  A strictly greater new label means
the old entry was deleted; strictly less means the new entry was created;
on equal labels the four kind combinations dispatch as in the source, with
`Directory/Directory` pushing the shared label and recursing. -/
def collectDiff : List DirectoryContents → List DirectoryContents → Path → Diff
  | [], [], _ => Diff.empty
  | o :: os, [], parent =>
      (deletedEntryD o parent).app (collectDiff os [] parent)
  | [], n :: ns, parent =>
      (createdEntryD n parent).app (collectDiff [] ns parent)
  | o :: os, n :: ns, parent =>
    match compare n.label o.label with
    | .gt => (deletedEntryD o parent).app (collectDiff os (n :: ns) parent)
    | .lt => (createdEntryD n parent).app (collectDiff (o :: os) ns parent)
    | .eq =>
      match n, o with
      | .file nName nf, .file _ oF =>
          (if oF.size ≠ nf.size ∨ oF.checksum ≠ nf.checksum
           then { Diff.empty with modified := [⟨parent ++ [nName], .plain [], none⟩] }
           else Diff.empty).app (collectDiff os ns parent)
      | .file nName _, .directory _ _ =>
          ({ Diff.empty with created := [⟨parent ++ [nName], .plain []⟩] }).app
            ((deletedEntryD o parent).app (collectDiff os ns parent))
      | .directory _ _, .file oName _ =>
          (createdEntryD n parent).app
            (({ Diff.empty with deleted := [⟨parent ++ [oName], .plain []⟩] }).app
              (collectDiff os ns parent))
      | .directory nCur nCs, .directory _ oCs =>
          (collectDiff oCs nCs (parent ++ [nCur])).app (collectDiff os ns parent)
termination_by old new _ => sizeOf old + sizeOf new
decreasing_by all_goals (simp_wf; try omega)

/-- `Diff::diff` from `diff.rs` lines 296-313: the path accumulator starts
as `Path::from_labels(right.current(), [])`, i.e. the single label of the
new (right) root, and the merge-join runs over the two root contents. -/
def Diff.diff (left right : Directory) : Diff :=
  collectDiff left.contents right.contents [right.current]

mutual

/-- Pre-sortedness of one entry: a file is always sorted; a directory is
sorted when its contents are.  Mirrors the spec invariant that snapshots
are ordered by name at every level. -/
def entrySorted : DirectoryContents → Bool
  | .file _ _ => true
  | .directory _ cs => listSorted cs

/-- Pre-sortedness of an entry list: strictly ascending labels, every
entry recursively sorted. -/
def listSorted : List DirectoryContents → Bool
  | [] => true
  | [e] => entrySorted e
  | e :: e2 :: es =>
      entrySorted e && decide (e.label < e2.label) && listSorted (e2 :: es)

end

/-! ## Basic lemmas about the embedding -/

theorem Diff.empty_app (d : Diff) : Diff.empty.app d = d := by
  simp [Diff.app, Diff.empty]

theorem Diff.app_empty (d : Diff) : d.app Diff.empty = d := by
  simp [Diff.app, Diff.empty]

/-- Unfolding for the strictly-greater branch of the merge-join. -/
theorem collectDiff_gt {o n : DirectoryContents} {os ns : List DirectoryContents}
    {parent : Path} (hcmp : compare n.label o.label = Ordering.gt) :
    collectDiff (o :: os) (n :: ns) parent =
      (deletedEntryD o parent).app (collectDiff os (n :: ns) parent) := by
  cases o <;> cases n <;> simp only [collectDiff] <;> rw [hcmp]

/-- Unfolding for the strictly-less branch of the merge-join. -/
theorem collectDiff_lt {o n : DirectoryContents} {os ns : List DirectoryContents}
    {parent : Path} (hcmp : compare n.label o.label = Ordering.lt) :
    collectDiff (o :: os) (n :: ns) parent =
      (createdEntryD n parent).app (collectDiff (o :: os) ns parent) := by
  cases o <;> cases n <;> simp only [collectDiff] <;> rw [hcmp]

theorem label_cmp_self (a : Label) : compare a a = Ordering.eq :=
  compare_eq_iff_eq.mpr rfl

/-- `collect_diff` of two identical entry lists contributes nothing. -/
theorem collectDiff_self (old new : List DirectoryContents) (parent : Path)
    (h : old = new) : collectDiff old new parent = Diff.empty := by
  induction old, new, parent using collectDiff.induct with
  | case1 parent => simp [collectDiff]
  | case2 o os parent ih => simp at h
  | case3 n ns parent ih => simp at h
  | case4 o os n ns parent hcmp ih =>
      obtain ⟨rfl, rfl⟩ := List.cons_eq_cons.mp h
      rw [label_cmp_self] at hcmp
      exact absurd hcmp (by simp)
  | case5 o os n ns parent hcmp ih =>
      obtain ⟨rfl, rfl⟩ := List.cons_eq_cons.mp h
      rw [label_cmp_self] at hcmp
      exact absurd hcmp (by simp)
  | case6 os ns parent nName nf name oF hcmp ih =>
      obtain ⟨he, rfl⟩ := List.cons_eq_cons.mp h
      obtain ⟨rfl, rfl⟩ : name = nName ∧ oF = nf := by
        cases he; exact ⟨rfl, rfl⟩
      simp only [collectDiff, hcmp]
      simp [ih rfl, Diff.app_empty]
  | case7 os ns parent nName f current contents hcmp ih =>
      exact absurd (List.cons_eq_cons.mp h).1 (by simp)
  | case8 os ns parent current contents oName f hcmp ih =>
      exact absurd (List.cons_eq_cons.mp h).1 (by simp)
  | case9 os ns parent nCur nCs current oCs hcmp ih1 ih2 =>
      obtain ⟨he, rfl⟩ := List.cons_eq_cons.mp h
      obtain ⟨rfl, rfl⟩ : current = nCur ∧ oCs = nCs := by
        cases he; exact ⟨rfl, rfl⟩
      simp only [collectDiff, hcmp]
      simp [ih1 rfl, ih2 rfl, Diff.empty_app]

/-! ## Claims C1, C3, C4, C5 -/

/-- C1: diffing any pre-sorted directory snapshot against an identical
copy of itself yields a `Diff` whose created, deleted, modified, moved and
copied lists are all empty. -/
theorem diff_self_empty (d : Directory) (h : listSorted d.contents = true) :
    Diff.diff d d = Diff.empty :=
  collectDiff_self _ _ _ rfl

/-- Witness for C1 at a concrete sorted snapshot. -/
theorem diff_self_empty_witness :
    listSorted [.file "a" ⟨1, 2⟩, .directory "b" [.file "c" ⟨3, 4⟩]] = true
    ∧ Diff.diff ⟨"r", [.file "a" ⟨1, 2⟩, .directory "b" [.file "c" ⟨3, 4⟩]]⟩
        ⟨"r", [.file "a" ⟨1, 2⟩, .directory "b" [.file "c" ⟨3, 4⟩]]⟩ = Diff.empty :=
  ⟨by simp [listSorted, entrySorted]; decide,
   diff_self_empty ⟨"r", [.file "a" ⟨1, 2⟩, .directory "b" [.file "c" ⟨3, 4⟩]]⟩
     (by simp [listSorted, entrySorted]; decide)⟩

/-- Evaluation of the concrete scenario used by several theorems below. -/
theorem diff_concrete_eval :
    Diff.diff ⟨"root", [.directory "A" [.file "x" ⟨1, 0⟩], .file "z" ⟨10, 0⟩]⟩
        ⟨"root", [.file "A" ⟨3, 0⟩, .file "z" ⟨20, 0⟩]⟩
      = { created := [⟨["root", "A"], .plain []⟩]
        , deleted := [⟨["root", "A", "x"], .plain []⟩]
        , moved := []
        , copied := []
        , modified := [⟨["root", "z"], .plain [], none⟩] } := by
  simp [Diff.diff, collectDiff, DirectoryContents.label, Diff.app, Diff.empty,
    deletedEntryD, createdEntryD, addDeletedFiles, addCreatedFiles,
    collectFilesFromEntry, collectFilesInnerList,
    show compare "A" "A" = Ordering.eq from rfl,
    show compare "z" "z" = Ordering.eq from rfl]

/-- C3: the concrete scenario, as computed by `Diff::diff`.  Old snapshot:
directory `A` holding file `x` (size 1) and file `z` (size 10); new
snapshot: file `A` (size 3) and file `z` (size 20, so `z` differs in
size).  Result: created = the file at `A`, deleted = the file nested at
`A/x`, modified = the file at `z`, moved = copied = [].  Paths are
root-anchored, as `Diff::diff` seeds the accumulator with the right
snapshot's root label. -/
theorem diff_concrete_scenario :
    Diff.diff ⟨"root", [.directory "A" [.file "x" ⟨1, 0⟩], .file "z" ⟨10, 0⟩]⟩
        ⟨"root", [.file "A" ⟨3, 0⟩, .file "z" ⟨20, 0⟩]⟩
      = { created := [⟨["root", "A"], .plain []⟩]
        , deleted := [⟨["root", "A", "x"], .plain []⟩]
        , moved := []
        , copied := []
        , modified := [⟨["root", "z"], .plain [], none⟩] } :=
  diff_concrete_eval

/-- C4: for every diff value, `stats()` reports `files_changed` equal to
the number of created entries plus deleted entries plus modified entries;
moved and copied entries never contribute. -/
theorem stats_files_changed (d : Diff) :
    (Diff.stats d).filesChanged
      = d.created.length + d.deleted.length + d.modified.length := by
  simp [Diff.stats]; omega

/-- The number of `Addition` lines across all hunks of one content diff,
written the way the spec counts them (`Binary` carries no hunks). -/
def specAdditionCount (fd : FileDiff) : Nat :=
  match fd with
  | .binary => 0
  | .plain hunks => (hunks.map (fun h => (h.lines.filter (fun l => l.isAddition)).length)).sum

/-- The number of `Deletion` lines across all hunks of one content diff. -/
def specDeletionCount (fd : FileDiff) : Nat :=
  match fd with
  | .binary => 0
  | .plain hunks => (hunks.map (fun h => (h.lines.filter (fun l => l.isDeletion)).length)).sum

/-- The total count of `Addition` lines over every `FileDiff` held in a
diff (created, deleted and modified entries; moved and copied entries
carry no content diff), following the words of the C5 claim. -/
def Diff.specTotalAdditions (d : Diff) : Nat :=
  (d.created.map (fun f => specAdditionCount f.diff)).sum
  + (d.deleted.map (fun f => specAdditionCount f.diff)).sum
  + (d.modified.map (fun f => specAdditionCount f.diff)).sum

/-- The total count of `Deletion` lines over every `FileDiff` held in a
diff, following the words of the C5 claim. -/
def Diff.specTotalDeletions (d : Diff) : Nat :=
  (d.created.map (fun f => specDeletionCount f.diff)).sum
  + (d.deleted.map (fun f => specDeletionCount f.diff)).sum
  + (d.modified.map (fun f => specDeletionCount f.diff)).sum

/-- Counterexample to C5 as stated: a diff holding one created file whose
`Plain` content diff contains a single `Deletion` line.  `stats()` counts
`Deletion` lines only for deleted and modified files, so it reports 0
deletions although one `Deletion` line occurs in a `Plain` file diff of
the value. -/
theorem stats_line_counts_counterexample :
    ¬ ((Diff.stats ⟨[⟨["f"], .plain [⟨⟨[]⟩, [.deletion ⟨[]⟩ 1]⟩]⟩], [], [], [], []⟩).insertions
        = Diff.specTotalAdditions ⟨[⟨["f"], .plain [⟨⟨[]⟩, [.deletion ⟨[]⟩ 1]⟩]⟩], [], [], [], []⟩
      ∧ (Diff.stats ⟨[⟨["f"], .plain [⟨⟨[]⟩, [.deletion ⟨[]⟩ 1]⟩]⟩], [], [], [], []⟩).deletions
        = Diff.specTotalDeletions ⟨[⟨["f"], .plain [⟨⟨[]⟩, [.deletion ⟨[]⟩ 1]⟩]⟩], [], [], [], []⟩) := by
  decide

/-! ## Path shape lemmas for the tree differ -/

/-- All paths recorded in the structural parts of a diff (created,
deleted, modified). -/
def Diff.paths (d : Diff) : List Path :=
  d.created.map (fun c => c.path) ++ d.deleted.map (fun c => c.path)
    ++ d.modified.map (fun c => c.path)

theorem Diff.mem_paths_app {p : Path} {a b : Diff} :
    p ∈ (a.app b).paths ↔ p ∈ a.paths ∨ p ∈ b.paths := by
  simp only [Diff.paths, Diff.app, List.map_append, List.mem_append]
  tauto

theorem Diff.mem_paths_of_created {c : CreateFile} {d : Diff} (h : c ∈ d.created) :
    c.path ∈ d.paths := by
  simp [Diff.paths]; exact Or.inl ⟨c, h, rfl⟩

theorem Diff.mem_paths_of_deleted {c : DeleteFile} {d : Diff} (h : c ∈ d.deleted) :
    c.path ∈ d.paths := by
  simp [Diff.paths]; exact Or.inr (Or.inl ⟨c, h, rfl⟩)

theorem Diff.mem_paths_of_modified {m : ModifiedFile} {d : Diff} (h : m ∈ d.modified) :
    m.path ∈ d.paths := by
  simp [Diff.paths]; exact Or.inr (Or.inr ⟨m, h, rfl⟩)

/-- Every path collected under prefix `q` extends `q`. -/
theorem collectFilesInnerList_shape {cs : List DirectoryContents} {q p : Path}
    (h : p ∈ collectFilesInnerList q cs) : ∃ rest, p = q ++ rest := by
  induction q, cs using collectFilesInnerList.induct with
  | case1 q => simp [collectFilesInnerList] at h
  | case2 q name f es ih =>
      rw [collectFilesInnerList] at h
      rcases List.mem_cons.mp h with h1 | h2
      · exact ⟨[name], h1⟩
      · exact ih h2
  | case3 q cur cs es ih1 ih2 =>
      rw [collectFilesInnerList] at h
      rcases List.mem_append.mp h with h1 | h2
      · obtain ⟨rest, hrest⟩ := ih1 h1
        exact ⟨cur :: rest, by simp [hrest]⟩
      · exact ih2 h2

/-- Every path collected from an entry is the parent path, then the
entry's own label, then possibly more labels. -/
theorem collectFilesFromEntry_shape {e : DirectoryContents} {parent p : Path}
    (h : p ∈ collectFilesFromEntry e parent) :
    ∃ rest, p = parent ++ (e.label :: rest) := by
  match e with
  | .file name f =>
      simp [collectFilesFromEntry] at h
      exact ⟨[], by simp [h, DirectoryContents.label]⟩
  | .directory cur cs =>
      obtain ⟨rest, hrest⟩ := collectFilesInnerList_shape h
      exact ⟨rest, by simp [hrest, DirectoryContents.label]⟩

theorem addCreatedFiles_shape {e : DirectoryContents} {parent : Path} {c : CreateFile}
    (h : c ∈ addCreatedFiles e parent) :
    (∃ rest, c.path = parent ++ (e.label :: rest)) ∧ c.diff = .plain [] := by
  simp [addCreatedFiles] at h
  obtain ⟨p, hp, rfl⟩ := h
  exact ⟨collectFilesFromEntry_shape hp, rfl⟩

theorem addDeletedFiles_shape {e : DirectoryContents} {parent : Path} {c : DeleteFile}
    (h : c ∈ addDeletedFiles e parent) :
    (∃ rest, c.path = parent ++ (e.label :: rest)) ∧ c.diff = .plain [] := by
  simp [addDeletedFiles] at h
  obtain ⟨p, hp, rfl⟩ := h
  exact ⟨collectFilesFromEntry_shape hp, rfl⟩

/-- Every path recorded by the merge-join under `parent` extends `parent`
with the label of one of the processed entries, then possibly more. -/
theorem collectDiff_paths_shape :
    ∀ {old new : List DirectoryContents} {parent : Path} {p : Path},
      p ∈ (collectDiff old new parent).paths →
      ∃ l rest, p = parent ++ (l :: rest)
        ∧ (l ∈ old.map DirectoryContents.label ∨ l ∈ new.map DirectoryContents.label) := by
  intro old new parent
  induction old, new, parent using collectDiff.induct with
  | case1 parent =>
      intro p hp
      simp [collectDiff, Diff.paths, Diff.empty] at hp
  | case2 o os parent ih =>
      intro p hp
      rw [collectDiff] at hp
      rcases Diff.mem_paths_app.mp hp with h1 | h2
      · simp only [deletedEntryD, Diff.paths, Diff.empty] at h1
        simp at h1
        obtain ⟨c, hc, rfl⟩ := h1
        obtain ⟨⟨rest, hrest⟩, -⟩ := addDeletedFiles_shape hc
        exact ⟨o.label, rest, hrest, by simp⟩
      · obtain ⟨l, rest, hrest, hl⟩ := ih h2
        refine ⟨l, rest, hrest, ?_⟩
        rcases hl with hl | hl
        · exact Or.inl (by simp only [List.map_cons, List.mem_cons]; exact Or.inr hl)
        · simp at hl
  | case3 n ns parent ih =>
      intro p hp
      rw [collectDiff] at hp
      rcases Diff.mem_paths_app.mp hp with h1 | h2
      · simp only [createdEntryD, Diff.paths, Diff.empty] at h1
        simp at h1
        obtain ⟨c, hc, rfl⟩ := h1
        obtain ⟨⟨rest, hrest⟩, -⟩ := addCreatedFiles_shape hc
        exact ⟨n.label, rest, hrest, by simp⟩
      · obtain ⟨l, rest, hrest, hl⟩ := ih h2
        refine ⟨l, rest, hrest, ?_⟩
        rcases hl with hl | hl
        · simp at hl
        · exact Or.inr (by simp only [List.map_cons, List.mem_cons]; exact Or.inr hl)
  | case4 o os n ns parent hcmp ih =>
      intro p hp
      rw [collectDiff_gt hcmp] at hp
      rcases Diff.mem_paths_app.mp hp with h1 | h2
      · simp only [deletedEntryD, Diff.paths, Diff.empty] at h1
        simp at h1
        obtain ⟨c, hc, rfl⟩ := h1
        obtain ⟨⟨rest, hrest⟩, -⟩ := addDeletedFiles_shape hc
        exact ⟨o.label, rest, hrest, by simp⟩
      · obtain ⟨l, rest, hrest, hl⟩ := ih h2
        refine ⟨l, rest, hrest, ?_⟩
        rcases hl with hl | hl
        · exact Or.inl (by simp only [List.map_cons, List.mem_cons]; exact Or.inr hl)
        · exact Or.inr hl
  | case5 o os n ns parent hcmp ih =>
      intro p hp
      rw [collectDiff_lt hcmp] at hp
      rcases Diff.mem_paths_app.mp hp with h1 | h2
      · simp only [createdEntryD, Diff.paths, Diff.empty] at h1
        simp at h1
        obtain ⟨c, hc, rfl⟩ := h1
        obtain ⟨⟨rest, hrest⟩, -⟩ := addCreatedFiles_shape hc
        exact ⟨n.label, rest, hrest, by simp⟩
      · obtain ⟨l, rest, hrest, hl⟩ := ih h2
        refine ⟨l, rest, hrest, ?_⟩
        rcases hl with hl | hl
        · exact Or.inl hl
        · exact Or.inr (by simp only [List.map_cons, List.mem_cons]; exact Or.inr hl)
  | case6 os ns parent nName nf name oF hcmp ih =>
      intro p hp
      simp only [collectDiff, hcmp] at hp
      have hsplit : p ∈ (if oF.size ≠ nf.size ∨ oF.checksum ≠ nf.checksum
          then { Diff.empty with modified := [⟨parent ++ [nName], .plain [], none⟩] }
          else Diff.empty).paths ∨ p ∈ (collectDiff os ns parent).paths :=
        Diff.mem_paths_app.mp hp
      rcases hsplit with h1 | h2
      · by_cases hc : oF.size ≠ nf.size ∨ oF.checksum ≠ nf.checksum
        · simp [hc, Diff.paths, Diff.empty] at h1
          exact ⟨nName, [], by simp [h1], by simp [DirectoryContents.label]⟩
        · simp [hc, Diff.paths, Diff.empty] at h1
      · obtain ⟨l, rest, hrest, hl⟩ := ih h2
        refine ⟨l, rest, hrest, ?_⟩
        rcases hl with hl | hl
        · exact Or.inl (by simp only [List.map_cons, List.mem_cons]; exact Or.inr hl)
        · exact Or.inr (by simp only [List.map_cons, List.mem_cons]; exact Or.inr hl)
  | case7 os ns parent nName f current contents hcmp ih =>
      intro p hp
      simp only [collectDiff, hcmp] at hp
      rcases Diff.mem_paths_app.mp hp with h1 | h2
      · simp [Diff.paths, Diff.empty] at h1
        exact ⟨nName, [], by simp [h1], by simp [DirectoryContents.label]⟩
      rcases Diff.mem_paths_app.mp h2 with h3 | h4
      · simp only [deletedEntryD, Diff.paths, Diff.empty] at h3
        simp at h3
        obtain ⟨c, hc, rfl⟩ := h3
        obtain ⟨⟨rest, hrest⟩, -⟩ := addDeletedFiles_shape hc
        exact ⟨current, rest, by simpa [DirectoryContents.label] using hrest,
          by simp [DirectoryContents.label]⟩
      · obtain ⟨l, rest, hrest, hl⟩ := ih h4
        refine ⟨l, rest, hrest, ?_⟩
        rcases hl with hl | hl
        · exact Or.inl (by simp only [List.map_cons, List.mem_cons]; exact Or.inr hl)
        · exact Or.inr (by simp only [List.map_cons, List.mem_cons]; exact Or.inr hl)
  | case8 os ns parent current contents oName f hcmp ih =>
      intro p hp
      simp only [collectDiff, hcmp] at hp
      rcases Diff.mem_paths_app.mp hp with h1 | h2
      · simp only [createdEntryD, Diff.paths, Diff.empty] at h1
        simp at h1
        obtain ⟨c, hc, rfl⟩ := h1
        obtain ⟨⟨rest, hrest⟩, -⟩ := addCreatedFiles_shape hc
        exact ⟨current, rest, by simpa [DirectoryContents.label] using hrest,
          by simp [DirectoryContents.label]⟩
      rcases Diff.mem_paths_app.mp h2 with h3 | h4
      · simp [Diff.paths, Diff.empty] at h3
        exact ⟨oName, [], by simp [h3], by simp [DirectoryContents.label]⟩
      · obtain ⟨l, rest, hrest, hl⟩ := ih h4
        refine ⟨l, rest, hrest, ?_⟩
        rcases hl with hl | hl
        · exact Or.inl (by simp only [List.map_cons, List.mem_cons]; exact Or.inr hl)
        · exact Or.inr (by simp only [List.map_cons, List.mem_cons]; exact Or.inr hl)
  | case9 os ns parent nCur nCs current oCs hcmp ih1 ih2 =>
      intro p hp
      simp only [collectDiff, hcmp] at hp
      rcases Diff.mem_paths_app.mp hp with h1 | h2
      · obtain ⟨l, rest, hrest, -⟩ := ih1 h1
        exact ⟨nCur, l :: rest, by simp [hrest], by simp [DirectoryContents.label]⟩
      · obtain ⟨l, rest, hrest, hl⟩ := ih2 h2
        refine ⟨l, rest, hrest, ?_⟩
        rcases hl with hl | hl
        · exact Or.inl (by simp only [List.map_cons, List.mem_cons]; exact Or.inr hl)
        · exact Or.inr (by simp only [List.map_cons, List.mem_cons]; exact Or.inr hl)

/-! ## Sorted-order lemmas -/

theorem listSorted_cons {e : DirectoryContents} {es : List DirectoryContents}
    (h : listSorted (e :: es) = true) :
    entrySorted e = true ∧ listSorted es = true ∧ ∀ x ∈ es, e.label < x.label := by
  induction es generalizing e with
  | nil => exact ⟨by simpa [listSorted] using h, rfl, by simp⟩
  | cons e2 es ih =>
      rw [listSorted] at h
      simp only [Bool.and_eq_true, decide_eq_true_eq] at h
      obtain ⟨⟨h1, h2⟩, h3⟩ := h
      obtain ⟨h4, h5, h6⟩ := ih h3
      refine ⟨h1, h3, ?_⟩
      intro x hx
      rcases List.mem_cons.mp hx with rfl | hx
      · exact h2
      · exact h2.trans (h6 x hx)

theorem sorted_tail_label_bound {e : DirectoryContents} {es : List DirectoryContents}
    (h : listSorted (e :: es) = true) {l : Label}
    (hl : l ∈ es.map DirectoryContents.label) : e.label < l := by
  obtain ⟨x, hx, rfl⟩ := List.mem_map.mp hl
  exact (listSorted_cons h).2.2 x hx

/-! ## Filter helpers for the type-change analysis -/

theorem path_top_ne {parent : Path} {M N : Label} {rest : List Label} (h : M ≠ N) :
    parent ++ M :: rest ≠ parent ++ [N] := by
  intro he
  exact h (List.cons_eq_cons.mp (List.append_cancel_left he)).1

theorem not_isPrefixOf_top_ne {parent : Path} {M N : Label} {rest : List Label}
    (h : M ≠ N) : ¬ (parent ++ [N]).isPrefixOf (parent ++ M :: rest) = true := by
  intro he
  rw [List.isPrefixOf_iff_prefix, List.prefix_append_right_inj] at he
  exact h ((List.cons_prefix_cons.mp he).1).symm

theorem addCreatedFiles_filter_out {e : DirectoryContents} {parent : Path} {N : Label}
    (h : e.label ≠ N) :
    (addCreatedFiles e parent).filter (fun c => c.path = parent ++ [N]) = [] := by
  refine List.filter_eq_nil_iff.mpr ?_
  intro c hc
  obtain ⟨⟨rest, hrest⟩, -⟩ := addCreatedFiles_shape hc
  simp only [decide_eq_true_eq, hrest]
  exact path_top_ne h

theorem addDeletedFiles_filter_out {e : DirectoryContents} {parent : Path} {N : Label}
    (h : e.label ≠ N) :
    (addDeletedFiles e parent).filter (fun c => (parent ++ [N]).isPrefixOf c.path) = [] := by
  refine List.filter_eq_nil_iff.mpr ?_
  intro c hc
  obtain ⟨⟨rest, hrest⟩, -⟩ := addDeletedFiles_shape hc
  rw [hrest]
  exact not_isPrefixOf_top_ne h

theorem addDeletedFiles_filter_self {N : Label} {sub : List DirectoryContents}
    {parent : Path} :
    (addDeletedFiles (.directory N sub) parent).filter
        (fun c => (parent ++ [N]).isPrefixOf c.path)
      = addDeletedFiles (.directory N sub) parent := by
  refine List.filter_eq_self.mpr ?_
  intro c hc
  obtain ⟨⟨rest, hrest⟩, -⟩ := addDeletedFiles_shape hc
  rw [hrest]
  rw [List.isPrefixOf_iff_prefix]
  simp only [DirectoryContents.label]
  rw [List.prefix_append_right_inj, List.cons_prefix_cons]
  simp

/-- Paths recorded by the merge-join whose processed entries all have
labels different from `N` never land at `parent ++ [N]`, nor below it. -/
theorem collectDiff_filter_out {old new : List DirectoryContents} {parent : Path}
    {N : Label}
    (h : ∀ l, (l ∈ old.map DirectoryContents.label ∨ l ∈ new.map DirectoryContents.label)
      → l ≠ N) :
    ((collectDiff old new parent).created.filter (fun c => c.path = parent ++ [N])) = []
    ∧ ((collectDiff old new parent).deleted.filter
        (fun c => (parent ++ [N]).isPrefixOf c.path)) = []
    ∧ ∀ m ∈ (collectDiff old new parent).modified, m.path ≠ parent ++ [N] := by
  refine ⟨List.filter_eq_nil_iff.mpr ?_, List.filter_eq_nil_iff.mpr ?_, ?_⟩
  · intro c hc
    obtain ⟨l, rest, hrest, hl⟩ := collectDiff_paths_shape (Diff.mem_paths_of_created hc)
    simp only [decide_eq_true_eq, hrest]
    exact path_top_ne (h l hl)
  · intro c hc
    obtain ⟨l, rest, hrest, hl⟩ := collectDiff_paths_shape (Diff.mem_paths_of_deleted hc)
    rw [hrest]
    exact not_isPrefixOf_top_ne (h l hl)
  · intro m hm
    obtain ⟨l, rest, hrest, hl⟩ := collectDiff_paths_shape (Diff.mem_paths_of_modified hm)
    rw [hrest]
    exact path_top_ne (h l hl)

/-- Recursing into a matched subdirectory with label `nCur ≠ N` produces no
path at or below `parent ++ [N]`. -/
theorem collectDiff_subdir_filter_out {oCs nCs : List DirectoryContents}
    {parent : Path} {nCur N : Label} (h : nCur ≠ N) :
    ((collectDiff oCs nCs (parent ++ [nCur])).created.filter
        (fun c => c.path = parent ++ [N])) = []
    ∧ ((collectDiff oCs nCs (parent ++ [nCur])).deleted.filter
        (fun c => (parent ++ [N]).isPrefixOf c.path)) = []
    ∧ ∀ m ∈ (collectDiff oCs nCs (parent ++ [nCur])).modified,
        m.path ≠ parent ++ [N] := by
  refine ⟨List.filter_eq_nil_iff.mpr ?_, List.filter_eq_nil_iff.mpr ?_, ?_⟩
  · intro c hc
    obtain ⟨l, rest, hrest, -⟩ := collectDiff_paths_shape (Diff.mem_paths_of_created hc)
    simp only [decide_eq_true_eq, hrest]
    rw [List.append_assoc, List.singleton_append]
    exact path_top_ne h
  · intro c hc
    obtain ⟨l, rest, hrest, -⟩ := collectDiff_paths_shape (Diff.mem_paths_of_deleted hc)
    rw [hrest, List.append_assoc, List.singleton_append]
    exact not_isPrefixOf_top_ne h
  · intro m hm
    obtain ⟨l, rest, hrest, -⟩ := collectDiff_paths_shape (Diff.mem_paths_of_modified hm)
    rw [hrest, List.append_assoc, List.singleton_append]
    exact path_top_ne h

/-- The tree differ never records moved or copied entries. -/
theorem collectDiff_moved_copied (old new : List DirectoryContents) (parent : Path) :
    (collectDiff old new parent).moved = [] ∧ (collectDiff old new parent).copied = [] := by
  induction old, new, parent using collectDiff.induct with
  | case1 parent => simp [collectDiff, Diff.empty]
  | case2 o os parent ih =>
      rw [collectDiff]
      simp [Diff.app, deletedEntryD, Diff.empty, ih]
  | case3 n ns parent ih =>
      rw [collectDiff]
      simp [Diff.app, createdEntryD, Diff.empty, ih]
  | case4 o os n ns parent hcmp ih =>
      rw [collectDiff_gt hcmp]
      simp [Diff.app, deletedEntryD, Diff.empty, ih]
  | case5 o os n ns parent hcmp ih =>
      rw [collectDiff_lt hcmp]
      simp [Diff.app, createdEntryD, Diff.empty, ih]
  | case6 os ns parent nName nf name oF hcmp ih =>
      simp only [collectDiff, hcmp]
      constructor
      · show (_ ++ (collectDiff os ns parent).moved) = []
        rw [ih.1]
        split <;> simp [Diff.empty]
      · show (_ ++ (collectDiff os ns parent).copied) = []
        rw [ih.2]
        split <;> simp [Diff.empty]
  | case7 os ns parent nName f current contents hcmp ih =>
      simp only [collectDiff, hcmp]
      simp [Diff.app, deletedEntryD, Diff.empty, ih]
  | case8 os ns parent current contents oName f hcmp ih =>
      simp only [collectDiff, hcmp]
      simp [Diff.app, createdEntryD, Diff.empty, ih]
  | case9 os ns parent nCur nCs current oCs hcmp ih1 ih2 =>
      simp only [collectDiff, hcmp]
      simp [Diff.app, ih1, ih2]

/-- The merge-join on pre-sorted inputs, applied to an old list containing
a directory at name `N` and a new list containing a file at name `N`:
exactly one created file is recorded at `parent ++ [N]` (with an empty
`Plain` diff), the deleted entries at or below `parent ++ [N]` are exactly
the files previously nested under the old directory `N`, and no
modification is recorded at `parent ++ [N]`. -/
theorem collectDiff_typechange :
    ∀ (old new : List DirectoryContents) (parent : Path) (N : Label)
      (sub : List DirectoryContents) (f : File),
      listSorted old = true → listSorted new = true →
      (DirectoryContents.directory N sub) ∈ old →
      (DirectoryContents.file N f) ∈ new →
      ((collectDiff old new parent).created.filter (fun c => c.path = parent ++ [N]))
          = [⟨parent ++ [N], .plain []⟩]
      ∧ ((collectDiff old new parent).deleted.filter
            (fun c => (parent ++ [N]).isPrefixOf c.path))
          = addDeletedFiles (.directory N sub) parent
      ∧ ∀ m ∈ (collectDiff old new parent).modified, m.path ≠ parent ++ [N] := by
  intro old new parent
  induction old, new, parent using collectDiff.induct with
  | case1 parent =>
      intro N sub f hso hsn ho hn
      simp at ho
  | case2 o os parent ih =>
      intro N sub f hso hsn ho hn
      simp at hn
  | case3 n ns parent ih =>
      intro N sub f hso hsn ho hn
      simp at ho
  | case4 o os n ns parent hcmp ih =>
      intro N sub f hso hsn ho hn
      have hlt : o.label < n.label := compare_gt_iff_gt.mp hcmp
      have hos : DirectoryContents.directory N sub ∈ os := by
        rcases List.mem_cons.mp ho with heq | hmem
        · exfalso
          have holab : o.label = N := by rw [← heq]; rfl
          rcases List.mem_cons.mp hn with heq2 | hmem2
          · have hnlab : n.label = N := by rw [← heq2]; rfl
            rw [holab, hnlab] at hlt
            exact lt_irrefl _ hlt
          · have hb := (listSorted_cons hsn).2.2 _ hmem2
            simp only [DirectoryContents.label] at hb
            rw [holab] at hlt
            exact lt_irrefl _ (hlt.trans hb)
        · exact hmem
      have hne : o.label ≠ N := by
        have := (listSorted_cons hso).2.2 _ hos
        simp only [DirectoryContents.label] at this
        exact ne_of_lt this
      obtain ⟨ih1, ih2, ih3⟩ := ih N sub f (listSorted_cons hso).2.1 hsn hos hn
      rw [collectDiff_gt hcmp]
      refine ⟨?_, ?_, ?_⟩
      · have hc : ((deletedEntryD o parent).app (collectDiff os (n :: ns) parent)).created
            = (collectDiff os (n :: ns) parent).created := by
          simp [Diff.app, deletedEntryD, Diff.empty]
        rw [hc, ih1]
      · have hc : ((deletedEntryD o parent).app (collectDiff os (n :: ns) parent)).deleted
            = addDeletedFiles o parent ++ (collectDiff os (n :: ns) parent).deleted := by
          simp [Diff.app, deletedEntryD, Diff.empty]
        rw [hc, List.filter_append, addDeletedFiles_filter_out hne, ih2, List.nil_append]
      · intro m hm
        have hc : ((deletedEntryD o parent).app (collectDiff os (n :: ns) parent)).modified
            = (collectDiff os (n :: ns) parent).modified := by
          simp [Diff.app, deletedEntryD, Diff.empty]
        rw [hc] at hm
        exact ih3 m hm
  | case5 o os n ns parent hcmp ih =>
      intro N sub f hso hsn ho hn
      have hlt : n.label < o.label := compare_lt_iff_lt.mp hcmp
      have hns : DirectoryContents.file N f ∈ ns := by
        rcases List.mem_cons.mp hn with heq | hmem
        · exfalso
          have hnlab : n.label = N := by rw [← heq]; rfl
          rcases List.mem_cons.mp ho with heq2 | hmem2
          · have holab : o.label = N := by rw [← heq2]; rfl
            rw [hnlab, holab] at hlt
            exact lt_irrefl _ hlt
          · have hb := (listSorted_cons hso).2.2 _ hmem2
            simp only [DirectoryContents.label] at hb
            rw [hnlab] at hlt
            exact lt_irrefl _ (hlt.trans hb)
        · exact hmem
      have hne : n.label ≠ N := by
        have := (listSorted_cons hsn).2.2 _ hns
        simp only [DirectoryContents.label] at this
        exact ne_of_lt this
      obtain ⟨ih1, ih2, ih3⟩ := ih N sub f hso (listSorted_cons hsn).2.1 ho hns
      rw [collectDiff_lt hcmp]
      refine ⟨?_, ?_, ?_⟩
      · have hc : ((createdEntryD n parent).app (collectDiff (o :: os) ns parent)).created
            = addCreatedFiles n parent ++ (collectDiff (o :: os) ns parent).created := by
          simp [Diff.app, createdEntryD, Diff.empty]
        rw [hc, List.filter_append, addCreatedFiles_filter_out hne, ih1, List.nil_append]
      · have hc : ((createdEntryD n parent).app (collectDiff (o :: os) ns parent)).deleted
            = (collectDiff (o :: os) ns parent).deleted := by
          simp [Diff.app, createdEntryD, Diff.empty]
        rw [hc, ih2]
      · intro m hm
        have hc : ((createdEntryD n parent).app (collectDiff (o :: os) ns parent)).modified
            = (collectDiff (o :: os) ns parent).modified := by
          simp [Diff.app, createdEntryD, Diff.empty]
        rw [hc] at hm
        exact ih3 m hm
  | case6 os ns parent nName nf name oF hcmp ih =>
      intro N sub f hso hsn ho hn
      have hnm : nName = name := by
        simpa [DirectoryContents.label] using compare_eq_iff_eq.mp hcmp
      have hos : DirectoryContents.directory N sub ∈ os := by
        rcases List.mem_cons.mp ho with heq | hmem
        · simp at heq
        · exact hmem
      have hname_ne : name ≠ N := by
        have := (listSorted_cons hso).2.2 _ hos
        simp only [DirectoryContents.label] at this
        exact ne_of_lt this
      have hns : DirectoryContents.file N f ∈ ns := by
        rcases List.mem_cons.mp hn with heq | hmem
        · exfalso
          have : N = nName := by
            have h2 := heq
            injection h2 with hh1 hh2
          exact hname_ne (hnm ▸ this.symm ▸ rfl)
        · exact hmem
      obtain ⟨ih1, ih2, ih3⟩ :=
        ih N sub f (listSorted_cons hso).2.1 (listSorted_cons hsn).2.1 hos hns
      simp only [collectDiff, hcmp]
      refine ⟨?_, ?_, ?_⟩
      · have hc : ((if oF.size ≠ nf.size ∨ oF.checksum ≠ nf.checksum
            then { Diff.empty with
                    modified := [⟨parent ++ [nName], .plain [], none⟩] }
            else Diff.empty).app (collectDiff os ns parent)).created
            = (collectDiff os ns parent).created := by
          split <;> simp [Diff.app, Diff.empty]
        rw [hc, ih1]
      · have hc : ((if oF.size ≠ nf.size ∨ oF.checksum ≠ nf.checksum
            then { Diff.empty with
                    modified := [⟨parent ++ [nName], .plain [], none⟩] }
            else Diff.empty).app (collectDiff os ns parent)).deleted
            = (collectDiff os ns parent).deleted := by
          split <;> simp [Diff.app, Diff.empty]
        rw [hc, ih2]
      · intro m hm
        have hc : ((if oF.size ≠ nf.size ∨ oF.checksum ≠ nf.checksum
            then { Diff.empty with
                    modified := [⟨parent ++ [nName], .plain [], none⟩] }
            else Diff.empty).app (collectDiff os ns parent)).modified
            = (if oF.size ≠ nf.size ∨ oF.checksum ≠ nf.checksum
                then [(⟨parent ++ [nName], .plain [], none⟩ : ModifiedFile)] else [])
              ++ (collectDiff os ns parent).modified := by
          split <;> simp [Diff.app, Diff.empty]
        rw [hc] at hm
        rcases List.mem_append.mp hm with h1 | h2
        · have : m.path = parent ++ [nName] := by
            rcases Decidable.em (oF.size ≠ nf.size ∨ oF.checksum ≠ nf.checksum) with hd | hd
            · simp [hd] at h1
              rw [h1]
            · simp [hd] at h1
          rw [this, hnm]
          exact path_top_ne hname_ne
        · exact ih3 m h2
  | case7 os ns parent nName f2 current contents hcmp ih =>
      intro N sub f hso hsn ho hn
      have hnm : nName = current := by
        simpa [DirectoryContents.label] using compare_eq_iff_eq.mp hcmp
      by_cases hcN : current = N
      · -- the aligned pair is exactly the type change at N
        have hcontents : contents = sub := by
          rcases List.mem_cons.mp ho with heq | hmem
          · injection heq with hh1 hh2
            exact hh2.symm
          · exfalso
            have := (listSorted_cons hso).2.2 _ hmem
            simp only [DirectoryContents.label] at this
            rw [hcN] at this
            exact lt_irrefl _ this
        have hexcl : ∀ l, (l ∈ os.map DirectoryContents.label
            ∨ l ∈ ns.map DirectoryContents.label) → l ≠ N := by
          intro l hl
          rcases hl with hl | hl
          · have := sorted_tail_label_bound hso hl
            simp only [DirectoryContents.label] at this
            rw [hcN] at this
            exact (ne_of_gt this)
          · have := sorted_tail_label_bound hsn hl
            simp only [DirectoryContents.label] at this
            rw [hnm, hcN] at this
            exact (ne_of_gt this)
        obtain ⟨t1, t2, t3⟩ := @collectDiff_filter_out os ns parent N hexcl
        simp only [collectDiff, hcmp]
        refine ⟨?_, ?_, ?_⟩
        · have hc : (({ Diff.empty with
                created := [⟨parent ++ [nName], .plain []⟩] }).app
                ((deletedEntryD (.directory current contents) parent).app
                  (collectDiff os ns parent))).created
              = [(⟨parent ++ [nName], .plain []⟩ : CreateFile)]
                ++ (collectDiff os ns parent).created := by
            simp [Diff.app, deletedEntryD, Diff.empty]
          rw [hc, List.filter_append, t1, List.append_nil]
          simp [hnm, hcN]
        · have hc : (({ Diff.empty with
                created := [⟨parent ++ [nName], .plain []⟩] }).app
                ((deletedEntryD (.directory current contents) parent).app
                  (collectDiff os ns parent))).deleted
              = addDeletedFiles (.directory current contents) parent
                ++ (collectDiff os ns parent).deleted := by
            simp [Diff.app, deletedEntryD, Diff.empty]
          rw [hc, List.filter_append, t2, List.append_nil, hcontents, hcN]
          exact addDeletedFiles_filter_self
        · intro m hm
          have hc : (({ Diff.empty with
                created := [⟨parent ++ [nName], .plain []⟩] }).app
                ((deletedEntryD (.directory current contents) parent).app
                  (collectDiff os ns parent))).modified
              = (collectDiff os ns parent).modified := by
            simp [Diff.app, deletedEntryD, Diff.empty]
          rw [hc] at hm
          exact t3 m hm
      · -- the aligned pair is at some other name
        have hos : DirectoryContents.directory N sub ∈ os := by
          rcases List.mem_cons.mp ho with heq | hmem
          · exfalso
            injection heq with hh1 hh2
            exact hcN hh1.symm
          · exact hmem
        have hns : DirectoryContents.file N f ∈ ns := by
          rcases List.mem_cons.mp hn with heq | hmem
          · exfalso
            injection heq with hh1 hh2
            exact hcN (hnm ▸ hh1.symm)
          · exact hmem
        obtain ⟨ih1, ih2, ih3⟩ :=
          ih N sub f (listSorted_cons hso).2.1 (listSorted_cons hsn).2.1 hos hns
        have hnN : nName ≠ N := fun h => hcN (hnm ▸ h)
        simp only [collectDiff, hcmp]
        refine ⟨?_, ?_, ?_⟩
        · have hc : (({ Diff.empty with
                created := [⟨parent ++ [nName], .plain []⟩] }).app
                ((deletedEntryD (.directory current contents) parent).app
                  (collectDiff os ns parent))).created
              = [(⟨parent ++ [nName], .plain []⟩ : CreateFile)]
                ++ (collectDiff os ns parent).created := by
            simp [Diff.app, deletedEntryD, Diff.empty]
          rw [hc, List.filter_append, ih1]
          have : List.filter (fun c => decide (c.path = parent ++ [N]))
              [(⟨parent ++ [nName], .plain []⟩ : CreateFile)] = [] := by
            simp only [List.filter_eq_nil_iff]
            intro c hc
            simp only [List.mem_singleton] at hc
            subst hc
            simp only [decide_eq_true_eq]
            exact path_top_ne hnN
          rw [this, List.nil_append]
        · have hc : (({ Diff.empty with
                created := [⟨parent ++ [nName], .plain []⟩] }).app
                ((deletedEntryD (.directory current contents) parent).app
                  (collectDiff os ns parent))).deleted
              = addDeletedFiles (.directory current contents) parent
                ++ (collectDiff os ns parent).deleted := by
            simp [Diff.app, deletedEntryD, Diff.empty]
          have hcur : (DirectoryContents.directory current contents).label ≠ N := hcN
          rw [hc, List.filter_append, addDeletedFiles_filter_out hcur, ih2,
            List.nil_append]
        · intro m hm
          have hc : (({ Diff.empty with
                created := [⟨parent ++ [nName], .plain []⟩] }).app
                ((deletedEntryD (.directory current contents) parent).app
                  (collectDiff os ns parent))).modified
              = (collectDiff os ns parent).modified := by
            simp [Diff.app, deletedEntryD, Diff.empty]
          rw [hc] at hm
          exact ih3 m hm
  | case8 os ns parent current contents oName f2 hcmp ih =>
      intro N sub f hso hsn ho hn
      have hnm : current = oName := by
        simpa [DirectoryContents.label] using compare_eq_iff_eq.mp hcmp
      have hos : DirectoryContents.directory N sub ∈ os := by
        rcases List.mem_cons.mp ho with heq | hmem
        · simp at heq
        · exact hmem
      have honame_ne : oName ≠ N := by
        have := (listSorted_cons hso).2.2 _ hos
        simp only [DirectoryContents.label] at this
        exact ne_of_lt this
      have hns : DirectoryContents.file N f ∈ ns := by
        rcases List.mem_cons.mp hn with heq | hmem
        · simp at heq
        · exact hmem
      obtain ⟨ih1, ih2, ih3⟩ :=
        ih N sub f (listSorted_cons hso).2.1 (listSorted_cons hsn).2.1 hos hns
      have hcur_ne : (DirectoryContents.directory current contents).label ≠ N := by
        simpa [DirectoryContents.label, hnm] using honame_ne
      simp only [collectDiff, hcmp]
      refine ⟨?_, ?_, ?_⟩
      · have hc : ((createdEntryD (.directory current contents) parent).app
              (({ Diff.empty with
                  deleted := [⟨parent ++ [oName], .plain []⟩] }).app
                (collectDiff os ns parent))).created
            = addCreatedFiles (.directory current contents) parent
              ++ (collectDiff os ns parent).created := by
          simp [Diff.app, createdEntryD, Diff.empty]
        rw [hc, List.filter_append, addCreatedFiles_filter_out hcur_ne, ih1,
          List.nil_append]
      · have hc : ((createdEntryD (.directory current contents) parent).app
              (({ Diff.empty with
                  deleted := [⟨parent ++ [oName], .plain []⟩] }).app
                (collectDiff os ns parent))).deleted
            = [(⟨parent ++ [oName], .plain []⟩ : DeleteFile)]
              ++ (collectDiff os ns parent).deleted := by
          simp [Diff.app, createdEntryD, Diff.empty]
        rw [hc, List.filter_append, ih2]
        have : List.filter (fun c => (parent ++ [N]).isPrefixOf c.path)
            [(⟨parent ++ [oName], .plain []⟩ : DeleteFile)] = [] := by
          simp only [List.filter_eq_nil_iff]
          intro c hc
          simp only [List.mem_singleton] at hc
          subst hc
          exact not_isPrefixOf_top_ne honame_ne
        rw [this, List.nil_append]
      · intro m hm
        have hc : ((createdEntryD (.directory current contents) parent).app
              (({ Diff.empty with
                  deleted := [⟨parent ++ [oName], .plain []⟩] }).app
                (collectDiff os ns parent))).modified
            = (collectDiff os ns parent).modified := by
          simp [Diff.app, createdEntryD, Diff.empty]
        rw [hc] at hm
        exact ih3 m hm
  | case9 os ns parent nCur nCs current oCs hcmp ih1 ih2 =>
      intro N sub f hso hsn ho hn
      have hnm : nCur = current := by
        simpa [DirectoryContents.label] using compare_eq_iff_eq.mp hcmp
      have hns : DirectoryContents.file N f ∈ ns := by
        rcases List.mem_cons.mp hn with heq | hmem
        · simp at heq
        · exact hmem
      have hncur_lt : nCur < N := by
        have := (listSorted_cons hsn).2.2 _ hns
        simpa [DirectoryContents.label] using this
      have hncur_ne : nCur ≠ N := ne_of_lt hncur_lt
      have hos : DirectoryContents.directory N sub ∈ os := by
        rcases List.mem_cons.mp ho with heq | hmem
        · exfalso
          injection heq with hh1 hh2
          rw [← hnm] at hh1
          exact hncur_ne hh1.symm
        · exact hmem
      obtain ⟨jh1, jh2, jh3⟩ :=
        ih2 N sub f (listSorted_cons hso).2.1 (listSorted_cons hsn).2.1 hos hns
      obtain ⟨s1, s2, s3⟩ := @collectDiff_subdir_filter_out oCs nCs parent nCur N hncur_ne
      simp only [collectDiff, hcmp]
      refine ⟨?_, ?_, ?_⟩
      · have hc : ((collectDiff oCs nCs (parent ++ [nCur])).app
              (collectDiff os ns parent)).created
            = (collectDiff oCs nCs (parent ++ [nCur])).created
              ++ (collectDiff os ns parent).created := by
          simp [Diff.app]
        rw [hc, List.filter_append, s1, jh1, List.nil_append]
      · have hc : ((collectDiff oCs nCs (parent ++ [nCur])).app
              (collectDiff os ns parent)).deleted
            = (collectDiff oCs nCs (parent ++ [nCur])).deleted
              ++ (collectDiff os ns parent).deleted := by
          simp [Diff.app]
        rw [hc, List.filter_append, s2, jh2, List.nil_append]
      · intro m hm
        have hc : ((collectDiff oCs nCs (parent ++ [nCur])).app
              (collectDiff os ns parent)).modified
            = (collectDiff oCs nCs (parent ++ [nCur])).modified
              ++ (collectDiff os ns parent).modified := by
          simp [Diff.app]
        rw [hc] at hm
        rcases List.mem_append.mp hm with h1 | h2
        · exact s3 m h1
        · exact jh3 m h2

/-- Number of files nested (recursively) in a list of entries. -/
def fileCountIn : List DirectoryContents → Nat
  | [] => 0
  | .file _ _ :: es => 1 + fileCountIn es
  | .directory _ cs :: es => fileCountIn cs + fileCountIn es

/-- The collector yields exactly one path per nested file. -/
theorem collectFilesInnerList_length (q : Path) (cs : List DirectoryContents) :
    (collectFilesInnerList q cs).length = fileCountIn cs := by
  induction q, cs using collectFilesInnerList.induct with
  | case1 q => simp [collectFilesInnerList, fileCountIn]
  | case2 q name f es ih =>
      simp [collectFilesInnerList, fileCountIn, ih]
      omega
  | case3 q cur cs es ih1 ih2 =>
      simp [collectFilesInnerList, fileCountIn, ih1, ih2]

theorem addDeletedFiles_length (N : Label) (sub : List DirectoryContents)
    (parent : Path) :
    (addDeletedFiles (.directory N sub) parent).length = fileCountIn sub := by
  simp [addDeletedFiles, collectFilesFromEntry, collectFilesInnerList_length]

/-- C2: for pre-sorted snapshots in which the new snapshot holds a file at
name `N` where the old snapshot held a directory `N`, the tree diff records
exactly one created file at `N` (with an empty `Plain` diff), one deleted
entry per file nested (recursively) under the old directory `N` (and no
other deleted entry at or below `N`), no modification at `N`, and never a
move or copy. -/
theorem diff_typechange (old new : Directory) (N : Label)
    (sub : List DirectoryContents) (f : File)
    (hso : listSorted old.contents = true) (hsn : listSorted new.contents = true)
    (ho : (DirectoryContents.directory N sub) ∈ old.contents)
    (hn : (DirectoryContents.file N f) ∈ new.contents) :
    ((Diff.diff old new).created.filter (fun c => c.path = [new.current] ++ [N]))
        = [⟨[new.current] ++ [N], .plain []⟩]
    ∧ ((Diff.diff old new).deleted.filter
          (fun c => ([new.current] ++ [N]).isPrefixOf c.path))
        = addDeletedFiles (.directory N sub) [new.current]
    ∧ ((Diff.diff old new).deleted.filter
          (fun c => ([new.current] ++ [N]).isPrefixOf c.path)).length = fileCountIn sub
    ∧ (∀ m ∈ (Diff.diff old new).modified, m.path ≠ [new.current] ++ [N])
    ∧ (Diff.diff old new).moved = [] ∧ (Diff.diff old new).copied = [] := by
  obtain ⟨h1, h2, h3⟩ := collectDiff_typechange old.contents new.contents
    [new.current] N sub f hso hsn ho hn
  refine ⟨h1, h2, ?_, h3, ?_, ?_⟩
  · rw [Diff.diff, h2, addDeletedFiles_length]
  · exact (collectDiff_moved_copied _ _ _).1
  · exact (collectDiff_moved_copied _ _ _).2

/-- Witness for C2 at the concrete type-change scenario. -/
theorem diff_typechange_witness :
    ((Diff.diff ⟨"root", [.directory "A" [.file "x" ⟨1, 0⟩], .file "z" ⟨10, 0⟩]⟩
        ⟨"root", [.file "A" ⟨3, 0⟩, .file "z" ⟨20, 0⟩]⟩).created.filter
          (fun c => c.path = ["root"] ++ ["A"]))
        = [⟨["root"] ++ ["A"], .plain []⟩]
    ∧ ((Diff.diff ⟨"root", [.directory "A" [.file "x" ⟨1, 0⟩], .file "z" ⟨10, 0⟩]⟩
        ⟨"root", [.file "A" ⟨3, 0⟩, .file "z" ⟨20, 0⟩]⟩).deleted.filter
          (fun c => (["root"] ++ ["A"]).isPrefixOf c.path))
        = addDeletedFiles (.directory "A" [.file "x" ⟨1, 0⟩]) ["root"]
    ∧ ((Diff.diff ⟨"root", [.directory "A" [.file "x" ⟨1, 0⟩], .file "z" ⟨10, 0⟩]⟩
        ⟨"root", [.file "A" ⟨3, 0⟩, .file "z" ⟨20, 0⟩]⟩).deleted.filter
          (fun c => (["root"] ++ ["A"]).isPrefixOf c.path)).length
        = fileCountIn [.file "x" ⟨1, 0⟩]
    ∧ (∀ m ∈ (Diff.diff ⟨"root", [.directory "A" [.file "x" ⟨1, 0⟩], .file "z" ⟨10, 0⟩]⟩
        ⟨"root", [.file "A" ⟨3, 0⟩, .file "z" ⟨20, 0⟩]⟩).modified,
          m.path ≠ ["root"] ++ ["A"])
    ∧ (Diff.diff ⟨"root", [.directory "A" [.file "x" ⟨1, 0⟩], .file "z" ⟨10, 0⟩]⟩
        ⟨"root", [.file "A" ⟨3, 0⟩, .file "z" ⟨20, 0⟩]⟩).moved = []
    ∧ (Diff.diff ⟨"root", [.directory "A" [.file "x" ⟨1, 0⟩], .file "z" ⟨10, 0⟩]⟩
        ⟨"root", [.file "A" ⟨3, 0⟩, .file "z" ⟨20, 0⟩]⟩).copied = [] :=
  diff_typechange ⟨"root", [.directory "A" [.file "x" ⟨1, 0⟩], .file "z" ⟨10, 0⟩]⟩
    ⟨"root", [.file "A" ⟨3, 0⟩, .file "z" ⟨20, 0⟩]⟩ "A" [.file "x" ⟨1, 0⟩] ⟨3, 0⟩
    (by simp [listSorted, entrySorted]; decide)
    (by simp [listSorted, entrySorted]; decide)
    (by simp) (by simp)

/-- C5 amended: `stats().insertions` counts the `Addition` lines of the
`Plain` file diffs of modified and created entries only, and
`stats().deletions` counts the `Deletion` lines of the `Plain` file diffs
of modified and deleted entries only; `Context` lines never change either
counter and `Binary` file diffs contribute nothing.  (As stated the claim
also charged `Deletion` lines of created files and `Addition` lines of
deleted files to the counters, which `stats()` ignores.) -/
theorem stats_line_counts (d : Diff) :
    (Diff.stats d).insertions
      = (d.modified.map (fun f => specAdditionCount f.diff)).sum
        + (d.created.map (fun f => specAdditionCount f.diff)).sum
  ∧ (Diff.stats d).deletions
      = (d.modified.map (fun f => specDeletionCount f.diff)).sum
        + (d.deleted.map (fun f => specDeletionCount f.diff)).sum := by
  constructor <;>
    simp [Diff.stats, specAdditionCount, specDeletionCount, FileDiff.additions,
      FileDiff.deletions, List.countP_eq_length_filter]

/-- C10: every path recorded by `Diff::diff` in the created, deleted and
modified lists begins with the label of the new (right) root directory,
because the path accumulator is initialised to the right snapshot's own
root label before the merge-join starts. -/
theorem diff_paths_root_anchored (left right : Directory) (p : Path)
    (hp : p ∈ (Diff.diff left right).paths) :
    ∃ rest, p = right.current :: rest := by
  obtain ⟨l, rest, hrest, -⟩ := collectDiff_paths_shape hp
  exact ⟨l :: rest, by simpa using hrest⟩

/-- Witness for C10: the created path of the concrete scenario starts with
the right snapshot's root label. -/
theorem diff_paths_root_anchored_witness :
    ∃ rest, (["root", "A"] : Path) = "root" :: rest :=
  diff_paths_root_anchored
    ⟨"root", [.directory "A" [.file "x" ⟨1, 0⟩], .file "z" ⟨10, 0⟩]⟩
    ⟨"root", [.file "A" ⟨3, 0⟩, .file "z" ⟨20, 0⟩]⟩ ["root", "A"]
    (by rw [Diff.paths, diff_concrete_eval]; simp)

/-! ## The git content-diff adapter, from `src/radicle-surf/src/diff/git.rs`

The adapter in `diff/git.rs` is written against a newer revision of the
diff data model (`DiffContent`, `Modification`, a `Diff` with a `stats`
field and `insert_*` builder methods) whose declarations are not among the
given sources; those data types are modelled from the spec below, while
every function body is embedded from `diff/git.rs` itself. -/

namespace Git

/-- The `git2::DiffLineType` values distinguished by the adapter
(`line.origin_value()`); the three `*EOFNL` values are the
missing-trailing-newline markers. -/
inductive DiffLineType where
  | context
  | addition
  | deletion
  | contextEOFNL
  | addEOFNL
  | deleteEOFNL
  | fileHeader
  | hunkHeader
  | binary
deriving Repr, DecidableEq

/-- A native line record of the backend patch (`git2::DiffLine`): an
origin marker, an optional old-side and new-side position, and content. -/
structure DiffLine where
  origin : DiffLineType
  oldLineno : Option Nat
  newLineno : Option Nat
  content : Line
deriving Repr, DecidableEq

/-- Modelled from the spec: the newer `Modification` line classification
(the spec's `LineDiff`): Addition carries the content and the new-side
position, Deletion the content and the old-side position, Context the
content and both positions. -/
inductive Modification where
  | addition (line : Line) (lineNum : Nat)
  | deletion (line : Line) (lineNum : Nat)
  | context (line : Line) (lineNumOld : Nat) (lineNumNew : Nat)
deriving Repr, DecidableEq

/-- `error::Modification` in `diff/git.rs`: a `DiffLine` with no line
number on either side is invalid. -/
inductive ModificationError where
  | invalid
deriving Repr, DecidableEq

/-- `TryFrom<git2::DiffLine> for Modification`, `diff/git.rs` lines
139-150: classify by the pair of optional positions; both absent is the
`Invalid` error. -/
def Modification.tryFrom (line : DiffLine) : Except ModificationError Modification :=
  match line.oldLineno, line.newLineno with
  | none, some n => .ok (.addition line.content n)
  | some n, none => .ok (.deletion line.content n)
  | some l, some r => .ok (.context line.content l r)
  | none, none => .error .invalid

/-- Modelled from the spec: the newer `EofNewLine`, a per-file
classification with all four combinations (`diff/git.rs` constructs
`NoneMissing` at line 130). -/
inductive EofNewLine where
  | oldMissing
  | newMissing
  | bothMissing
  | noneMissing
deriving Repr, DecidableEq

/-- Modelled from the spec: a hunk of the newer model, a verbatim header
plus an ordered list of line classifications. -/
structure GHunk where
  header : Line
  lines : List Modification
deriving Repr, DecidableEq

/-- Modelled from the spec: the newer `DiffContent`, either a textual
diff (hunks plus an end-of-file outcome) or a binary marker. -/
inductive DiffContent where
  | plain (hunks : List GHunk) (eof : EofNewLine)
  | binary
deriving Repr, DecidableEq

/-- A native hunk of the backend patch: verbatim header and native line
records. -/
structure NativeHunk where
  header : Line
  lines : List DiffLine
deriving Repr, DecidableEq

/-- A native per-file patch (`git2::Patch`): an ordered list of hunks. -/
abbrev Patch := List NativeHunk

/-- `error::Hunk` restricted to what the embedding can raise (backend
`git2::Error` values are external I/O failures and are not modelled). -/
inductive HunkError where
  | line (e : ModificationError)
deriving Repr, DecidableEq

/-- The inner line loop of `TryFrom<git2::Patch> for DiffContent`
(`diff/git.rs` lines 103-123): EOF markers set the accumulated flags and
are skipped (`continue`), every other record is classified and pushed;
classification failure aborts. -/
def processLines : List DiffLine → Bool → Bool → Except HunkError (List Modification × Bool × Bool)
  | [], oldM, newM => .ok ([], oldM, newM)
  | l :: ls, oldM, newM =>
    match l.origin with
    | .contextEOFNL => processLines ls true true
    | .addEOFNL => processLines ls true newM
    | .deleteEOFNL => processLines ls oldM true
    | _ =>
      match Modification.tryFrom l with
      | .error e => .error (.line e)
      | .ok m =>
        match processLines ls oldM newM with
        | .error e => .error e
        | .ok (ms, o2, n2) => .ok (m :: ms, o2, n2)

/-- The outer hunk loop of `TryFrom<git2::Patch> for DiffContent`
(`diff/git.rs` lines 98-125): the flag pair threads across hunks. -/
def processHunks : List NativeHunk → Bool → Bool → Except HunkError (List GHunk × Bool × Bool)
  | [], oldM, newM => .ok ([], oldM, newM)
  | h :: hs, oldM, newM =>
    match processLines h.lines oldM newM with
    | .error e => .error e
    | .ok (lines, o2, n2) =>
      match processHunks hs o2 n2 with
      | .error e => .error e
      | .ok (rest, o3, n3) => .ok (⟨h.header, lines⟩ :: rest, o3, n3)

/-- `TryFrom<git2::Patch> for DiffContent`, `diff/git.rs` lines 90-137:
scan all hunks accumulating the two missing-newline flags, then map the
flag pair to the `EofNewLine` outcome. -/
def DiffContent.tryFrom (patch : Patch) : Except HunkError DiffContent :=
  match processHunks patch false false with
  | .error e => .error e
  | .ok (hunks, oldMissingEof, newMissingEof) =>
    let eof := match oldMissingEof, newMissingEof with
      | true, true => EofNewLine.bothMissing
      | true, false => EofNewLine.oldMissing
      | false, true => EofNewLine.newMissing
      | false, false => EofNewLine.noneMissing
    .ok (.plain hunks eof)

/-- `git2::Delta`: the file-level status supplied by the backend. -/
inductive Delta where
  | unmodified
  | added
  | deleted
  | modified
  | renamed
  | copied
  | ignored
  | untracked
  | typechange
  | unreadable
  | conflicted
deriving Repr, DecidableEq

/-- A backend path (`std::path::PathBuf`), kept abstract as a string. -/
abbrev PathBuf := String

/-- One side of a backend delta (`git2::DiffFile`): an optional path and a
binary flag. -/
structure DiffFile where
  path : Option PathBuf
  isBinary : Bool
deriving Repr, DecidableEq

/-- A backend delta record (`git2::DiffDelta`): status plus the two file
sides. -/
structure DiffDelta where
  status : Delta
  oldFile : DiffFile
  newFile : DiffFile
deriving Repr, DecidableEq

/-- One entry of the backend diff: the delta together with the extractable
patch (`git2::Patch::from_diff` yields an `Option`). -/
structure DeltaRecord where
  delta : DiffDelta
  patch : Option Patch
deriving Repr, DecidableEq

/-- Modelled from the spec: the aggregate statistics carried by the newer
`Diff` (`diff.stats = git_diff.stats()?.into()`), supplied by the
backend. -/
structure Stats where
  filesChanged : Nat
  insertions : Nat
  deletions : Nat
deriving Repr, DecidableEq

/-- The whole backend diff (`git2::Diff`): its deltas in order, plus its
backend-computed stats. -/
structure GitDiff where
  deltas : List DeltaRecord
  stats : Stats
deriving Repr, DecidableEq

/-- Modelled from the spec: the newer `Diff` aggregate with its five lists
and backend stats; built by append-only `insert_*` operations. -/
structure Diff where
  created : List (PathBuf × DiffContent)
  deleted : List (PathBuf × DiffContent)
  moved : List (PathBuf × PathBuf)
  copied : List (PathBuf × PathBuf)
  modified : List (PathBuf × DiffContent)
  stats : Stats
deriving Repr, DecidableEq

/-- Modelled from the spec: append-only `Diff::insert_added`. -/
def Diff.insertAdded (d : Diff) (path : PathBuf) (c : DiffContent) : Diff :=
  { d with created := d.created ++ [(path, c)] }

/-- Modelled from the spec: append-only `Diff::insert_deleted`. -/
def Diff.insertDeleted (d : Diff) (path : PathBuf) (c : DiffContent) : Diff :=
  { d with deleted := d.deleted ++ [(path, c)] }

/-- Modelled from the spec: append-only `Diff::insert_modified`. -/
def Diff.insertModified (d : Diff) (path : PathBuf) (c : DiffContent) : Diff :=
  { d with modified := d.modified ++ [(path, c)] }

/-- Modelled from the spec: append-only `Diff::insert_moved`. -/
def Diff.insertMoved (d : Diff) (old new : PathBuf) : Diff :=
  { d with moved := d.moved ++ [(old, new)] }

/-- Modelled from the spec: append-only `Diff::insert_copied`. -/
def Diff.insertCopied (d : Diff) (old new : PathBuf) : Diff :=
  { d with copied := d.copied ++ [(old, new)] }

/-- `error::Diff` restricted to what the embedding can raise. -/
inductive DiffError where
  | deltaUnhandled (status : Delta)
  | hunk (e : HunkError)
  | line (e : ModificationError)
  | patchUnavailable (p : PathBuf)
  | pathUnavailable
deriving Repr, DecidableEq

/-- The `created` helper of `diff/git.rs` lines 188-209: path from the new
side (`PathUnavailable` if absent); a present patch is converted
(classification failures propagate before any insertion), an absent patch
is allowed only for binary files, otherwise `PatchUnavailable`. -/
def created (diff : Diff) (r : DeltaRecord) : Except DiffError Diff :=
  match r.delta.newFile.path with
  | none => .error .pathUnavailable
  | some path =>
    match r.patch with
    | some patch =>
      match DiffContent.tryFrom patch with
      | .error e => .error (.hunk e)
      | .ok c => .ok (diff.insertAdded path c)
    | none =>
      if r.delta.newFile.isBinary then .ok (diff.insertAdded path .binary)
      else .error (.patchUnavailable path)

/-- The `deleted` helper of `diff/git.rs` lines 211-231 (path from the old
side). -/
def deleted (diff : Diff) (r : DeltaRecord) : Except DiffError Diff :=
  match r.delta.oldFile.path with
  | none => .error .pathUnavailable
  | some path =>
    match r.patch with
    | some patch =>
      match DiffContent.tryFrom patch with
      | .error e => .error (.hunk e)
      | .ok c => .ok (diff.insertDeleted path c)
    | none =>
      if r.delta.oldFile.isBinary then .ok (diff.insertDeleted path .binary)
      else .error (.patchUnavailable path)

/-- The `modified` helper of `diff/git.rs` lines 233-255 (path from the
new side). -/
def modified (diff : Diff) (r : DeltaRecord) : Except DiffError Diff :=
  match r.delta.newFile.path with
  | none => .error .pathUnavailable
  | some path =>
    match r.patch with
    | some patch =>
      match DiffContent.tryFrom patch with
      | .error e => .error (.hunk e)
      | .ok c => .ok (diff.insertModified path c)
    | none =>
      if r.delta.newFile.isBinary then .ok (diff.insertModified path .binary)
      else .error (.patchUnavailable path)

/-- The `renamed` helper of `diff/git.rs` lines 257-269: both paths must
be present; the pair is recorded with no content diff. -/
def renamed (diff : Diff) (r : DeltaRecord) : Except DiffError Diff :=
  match r.delta.oldFile.path with
  | none => .error .pathUnavailable
  | some old =>
    match r.delta.newFile.path with
    | none => .error .pathUnavailable
    | some new => .ok (diff.insertMoved old new)

/-- The `copied` helper of `diff/git.rs` lines 271-283. -/
def copied (diff : Diff) (r : DeltaRecord) : Except DiffError Diff :=
  match r.delta.oldFile.path with
  | none => .error .pathUnavailable
  | some old =>
    match r.delta.newFile.path with
    | none => .error .pathUnavailable
    | some new => .ok (diff.insertCopied old new)

/-- The per-delta dispatch of `TryFrom<git2::Diff> for Diff`
(`diff/git.rs` lines 171-182): the five handled statuses route to their
helpers; any other status is the hard `DeltaUnhandled` failure. -/
def handleDelta (diff : Diff) (r : DeltaRecord) : Except DiffError Diff :=
  match r.delta.status with
  | .added => created diff r
  | .deleted => deleted diff r
  | .modified => modified diff r
  | .renamed => renamed diff r
  | .copied => copied diff r
  | s => .error (.deltaUnhandled s)

/-- The delta loop of `TryFrom<git2::Diff> for Diff`. -/
def processDeltas (diff : Diff) : List DeltaRecord → Except DiffError Diff
  | [] => .ok diff
  | r :: rs =>
    match handleDelta diff r with
    | .error e => .error e
    | .ok d2 => processDeltas d2 rs

/-- `TryFrom<git2::Diff> for Diff`, `diff/git.rs` lines 162-186: start
from `Diff::new()` with the backend stats, then process every delta in
order. -/
def Diff.tryFrom (g : GitDiff) : Except DiffError Diff :=
  processDeltas ⟨[], [], [], [], [], g.stats⟩ g.deltas

/-! ### Line classification (C6) -/

/-- C6: the adapter's per-line classification.  Old position absent and
new present yields an Addition carrying the content and the new position;
old present and new absent yields a Deletion with the old position; both
present yields a Context with both positions; both absent fails with the
`Invalid` error and produces no line. -/
theorem modification_classification (l : DiffLine) :
    (∀ n, l.oldLineno = none → l.newLineno = some n →
        Modification.tryFrom l = .ok (.addition l.content n))
    ∧ (∀ n, l.oldLineno = some n → l.newLineno = none →
        Modification.tryFrom l = .ok (.deletion l.content n))
    ∧ (∀ o n, l.oldLineno = some o → l.newLineno = some n →
        Modification.tryFrom l = .ok (.context l.content o n))
    ∧ (l.oldLineno = none → l.newLineno = none →
        Modification.tryFrom l = .error .invalid) := by
  refine ⟨?_, ?_, ?_, ?_⟩
  · intro n h1 h2; simp [Modification.tryFrom, h1, h2]
  · intro n h1 h2; simp [Modification.tryFrom, h1, h2]
  · intro o n h1 h2; simp [Modification.tryFrom, h1, h2]
  · intro h1 h2; simp [Modification.tryFrom, h1, h2]

/-- Witness for C6 at the four concrete position combinations. -/
theorem modification_classification_witness :
    Modification.tryFrom ⟨.addition, none, some 5, ⟨[]⟩⟩ = .ok (.addition ⟨[]⟩ 5)
    ∧ Modification.tryFrom ⟨.deletion, some 4, none, ⟨[]⟩⟩ = .ok (.deletion ⟨[]⟩ 4)
    ∧ Modification.tryFrom ⟨.context, some 2, some 3, ⟨[]⟩⟩ = .ok (.context ⟨[]⟩ 2 3)
    ∧ Modification.tryFrom ⟨.context, none, none, ⟨[]⟩⟩ = .error .invalid :=
  ⟨(modification_classification ⟨.addition, none, some 5, ⟨[]⟩⟩).1 5 rfl rfl,
   (modification_classification ⟨.deletion, some 4, none, ⟨[]⟩⟩).2.1 4 rfl rfl,
   (modification_classification ⟨.context, some 2, some 3, ⟨[]⟩⟩).2.2.1 2 3 rfl rfl,
   (modification_classification ⟨.context, none, none, ⟨[]⟩⟩).2.2.2 rfl rfl⟩

/-! ### End-of-file anomaly accumulation (C7) -/

/-- The three missing-trailing-newline markers. -/
def DiffLineType.isEofMarker : DiffLineType → Bool
  | .contextEOFNL | .addEOFNL | .deleteEOFNL => true
  | _ => false

/-- Markers that set the old-missing flag: the context-side marker sets
both flags, the addition-side marker sets only the old-missing flag. -/
def DiffLineType.isOldMarker : DiffLineType → Bool
  | .contextEOFNL | .addEOFNL => true
  | _ => false

/-- Markers that set the new-missing flag: the context-side marker and the
deletion-side marker. -/
def DiffLineType.isNewMarker : DiffLineType → Bool
  | .contextEOFNL | .deleteEOFNL => true
  | _ => false

/-- The spec's table from the accumulated flag pair to the per-file
outcome: (true,true) to BothMissing, (true,false) to OldMissing,
(false,true) to NewMissing, (false,false) to NoneMissing. -/
def eofClass : Bool → Bool → EofNewLine
  | true, true => .bothMissing
  | true, false => .oldMissing
  | false, true => .newMissing
  | false, false => .noneMissing

/-- What one native line contributes to the emitted hunk lines: markers
are never emitted, every other record is classified when possible. -/
def classifyLine (l : DiffLine) : Option Modification :=
  if l.origin.isEofMarker then none else (Modification.tryFrom l).toOption

/-- Whether a patch contains any old-missing marker. -/
def hasOldMarker (p : Patch) : Bool :=
  p.any (fun nh => nh.lines.any (fun l => l.origin.isOldMarker))

/-- Whether a patch contains any new-missing marker. -/
def hasNewMarker (p : Patch) : Bool :=
  p.any (fun nh => nh.lines.any (fun l => l.origin.isNewMarker))

theorem processLines_ok {ls : List DiffLine} {o n : Bool}
    {ms : List Modification} {o2 n2 : Bool}
    (h : processLines ls o n = .ok (ms, o2, n2)) :
    ms = ls.filterMap classifyLine
    ∧ o2 = (o || ls.any (fun l => l.origin.isOldMarker))
    ∧ n2 = (n || ls.any (fun l => l.origin.isNewMarker)) := by
  induction ls generalizing o n ms o2 n2 with
  | nil =>
      simp [processLines] at h
      obtain ⟨h1, h2, h3⟩ := h
      simp [h1, h2, h3]
  | cons l ls ih =>
      cases horig : l.origin <;>
        simp only [processLines, horig] at h
      case contextEOFNL =>
        obtain ⟨h1, h2, h3⟩ := ih h
        refine ⟨by simp [h1, classifyLine, horig, DiffLineType.isEofMarker], ?_, ?_⟩
        · simp [h2, horig, DiffLineType.isOldMarker]
        · simp [h3, horig, DiffLineType.isNewMarker]
      case addEOFNL =>
        obtain ⟨h1, h2, h3⟩ := ih h
        refine ⟨by simp [h1, classifyLine, horig, DiffLineType.isEofMarker], ?_, ?_⟩
        · simp [h2, horig, DiffLineType.isOldMarker]
        · simp [h3, horig, DiffLineType.isNewMarker, Bool.or_assoc]
      case deleteEOFNL =>
        obtain ⟨h1, h2, h3⟩ := ih h
        refine ⟨by simp [h1, classifyLine, horig, DiffLineType.isEofMarker], ?_, ?_⟩
        · simp [h2, horig, DiffLineType.isOldMarker, Bool.or_assoc]
        · simp [h3, horig, DiffLineType.isNewMarker]
      all_goals {
        cases htf : Modification.tryFrom l with
        | error e => rw [htf] at h; simp at h
        | ok m =>
          rw [htf] at h
          cases hrec : processLines ls o n with
          | error e => rw [hrec] at h; simp at h
          | ok t =>
            obtain ⟨ms2, o3, n3⟩ := t
            simp only [hrec, Except.ok.injEq, Prod.mk.injEq] at h
            obtain ⟨hms, ho3, hn3⟩ := h
            obtain ⟨h1, h2, h3⟩ := ih hrec
            subst hms
            subst ho3
            subst hn3
            refine ⟨?_, ?_, ?_⟩
            · simp [h1, classifyLine, horig, DiffLineType.isEofMarker, htf,
                List.filterMap_cons, Except.toOption]
            · simp [h2, horig, DiffLineType.isOldMarker, List.any_cons]
            · simp [h3, horig, DiffLineType.isNewMarker, List.any_cons]
      }

theorem processHunks_ok {hs : List NativeHunk} {o n : Bool}
    {hunks : List GHunk} {o2 n2 : Bool}
    (h : processHunks hs o n = .ok (hunks, o2, n2)) :
    hunks = hs.map (fun nh => ⟨nh.header, nh.lines.filterMap classifyLine⟩)
    ∧ o2 = (o || hs.any (fun nh => nh.lines.any (fun l => l.origin.isOldMarker)))
    ∧ n2 = (n || hs.any (fun nh => nh.lines.any (fun l => l.origin.isNewMarker))) := by
  induction hs generalizing o n hunks o2 n2 with
  | nil =>
      simp [processHunks] at h
      obtain ⟨h1, h2, h3⟩ := h
      simp [h1, h2, h3]
  | cons nh hs ih =>
      simp only [processHunks] at h
      cases hpl : processLines nh.lines o n with
      | error e => rw [hpl] at h; simp at h
      | ok t =>
        obtain ⟨lines, o3, n3⟩ := t
        simp only [hpl] at h
        cases hph : processHunks hs o3 n3 with
        | error e => simp only [hph] at h; simp at h
        | ok t2 =>
          obtain ⟨rest, o4, n4⟩ := t2
          simp only [hph, Except.ok.injEq, Prod.mk.injEq] at h
          obtain ⟨hh, ho4, hn4⟩ := h
          obtain ⟨p1, p2, p3⟩ := processLines_ok hpl
          obtain ⟨q1, q2, q3⟩ := ih hph
          subst hh
          subst ho4
          subst hn4
          refine ⟨?_, ?_, ?_⟩
          · simp [q1, p1]
          · rw [q2, p2, Bool.or_assoc]
            simp [List.any_cons]
          · rw [q3, p3, Bool.or_assoc]
            simp [List.any_cons]

/-- C7: for every per-file patch whose conversion succeeds, the emitted
hunks contain exactly the classified non-marker lines (the three
end-of-file markers are never emitted), and the end-of-file outcome is the
table applied to the accumulated flags: the context-side marker sets both
flags, the addition-side marker only the old-missing flag, the
deletion-side marker only the new-missing flag, and the flag pair maps
(true,true) to BothMissing, (true,false) to OldMissing, (false,true) to
NewMissing, (false,false) to NoneMissing. -/
theorem diffcontent_eof_classification (p : Patch) (hunks : List GHunk)
    (eof : EofNewLine) (h : DiffContent.tryFrom p = .ok (.plain hunks eof)) :
    eof = eofClass (hasOldMarker p) (hasNewMarker p)
    ∧ hunks = p.map (fun nh => ⟨nh.header, nh.lines.filterMap classifyLine⟩) := by
  unfold DiffContent.tryFrom at h
  cases hph : processHunks p false false with
  | error e => rw [hph] at h; simp at h
  | ok t =>
    obtain ⟨hs2, o2, n2⟩ := t
    rw [hph] at h
    obtain ⟨q1, q2, q3⟩ := processHunks_ok hph
    simp only [Except.ok.injEq, DiffContent.plain.injEq] at h
    obtain ⟨hh, he⟩ := h
    subst hh
    constructor
    · rw [← he, q2, q3]
      simp only [Bool.false_or]
      have hOld : (List.any p fun nh => nh.lines.any fun l => l.origin.isOldMarker)
          = hasOldMarker p := rfl
      have hNew : (List.any p fun nh => nh.lines.any fun l => l.origin.isNewMarker)
          = hasNewMarker p := rfl
      rw [hOld, hNew]
      cases h1 : hasOldMarker p <;> cases h2 : hasNewMarker p <;> simp [eofClass]
    · exact q1.symm ▸ rfl

/-- Witness for C7 at a concrete two-marker patch. -/
theorem diffcontent_eof_classification_witness :
    EofNewLine.oldMissing
      = eofClass (hasOldMarker [⟨⟨[]⟩, [⟨.addEOFNL, some 1, some 1, ⟨[]⟩⟩,
          ⟨.context, some 1, some 1, ⟨[]⟩⟩]⟩])
        (hasNewMarker [⟨⟨[]⟩, [⟨.addEOFNL, some 1, some 1, ⟨[]⟩⟩,
          ⟨.context, some 1, some 1, ⟨[]⟩⟩]⟩])
    ∧ [(⟨⟨[]⟩, [.context ⟨[]⟩ 1 1]⟩ : GHunk)]
      = ([⟨⟨[]⟩, [⟨.addEOFNL, some 1, some 1, ⟨[]⟩⟩,
          ⟨.context, some 1, some 1, ⟨[]⟩⟩]⟩] : Patch).map
          (fun nh => ⟨nh.header, nh.lines.filterMap classifyLine⟩) :=
  diffcontent_eof_classification
    [⟨⟨[]⟩, [⟨.addEOFNL, some 1, some 1, ⟨[]⟩⟩, ⟨.context, some 1, some 1, ⟨[]⟩⟩]⟩]
    [⟨⟨[]⟩, [.context ⟨[]⟩ 1 1]⟩] .oldMissing rfl

/-! ### Malformed-line safety (C8) -/

theorem processLines_bad {ls : List DiffLine} {l : DiffLine}
    (hmem : l ∈ ls) (hmark : l.origin.isEofMarker = false)
    (ho : l.oldLineno = none) (hn : l.newLineno = none) :
    ∀ o n, processLines ls o n = .error (.line .invalid) := by
  induction ls with
  | nil => simp at hmem
  | cons hd tl ih =>
      intro o n
      rcases List.mem_cons.mp hmem with heq | hmem2
      · rw [heq] at hmark ho hn
        have htf : Modification.tryFrom hd = .error .invalid := by
          simp [Modification.tryFrom, ho, hn]
        cases horig : hd.origin <;>
          simp [DiffLineType.isEofMarker, horig] at hmark <;>
          simp [processLines, horig, htf]
      · cases horig : hd.origin <;> simp only [processLines, horig]
        case contextEOFNL => exact ih hmem2 true true
        case addEOFNL => exact ih hmem2 true n
        case deleteEOFNL => exact ih hmem2 o true
        all_goals {
          cases htf : Modification.tryFrom hd with
          | error e =>
              cases e
              simp [htf]
          | ok m =>
              simp [htf, ih hmem2 o n]
        }

theorem processHunks_bad {hs : List NativeHunk} {nh : NativeHunk} {l : DiffLine}
    (hnh : nh ∈ hs) (hl : l ∈ nh.lines) (hmark : l.origin.isEofMarker = false)
    (ho : l.oldLineno = none) (hn : l.newLineno = none) :
    ∀ o n, processHunks hs o n = .error (.line .invalid) := by
  induction hs with
  | nil => simp at hnh
  | cons hd hs ih =>
      intro o n
      rcases List.mem_cons.mp hnh with heq | hmem2
      · subst heq
        simp only [processHunks]
        rw [processLines_bad hl hmark ho hn o n]
      · simp only [processHunks]
        cases hpl : processLines hd.lines o n with
        | error e =>
            cases e with
            | line e2 => cases e2; rfl
        | ok t =>
            obtain ⟨lines, o3, n3⟩ := t
            simp [ih hmem2 o3 n3]

/-- A patch holding a positionless non-marker line always fails conversion
with the `Invalid` classification error. -/
theorem diffcontent_tryFrom_bad {patch : Patch} {nh : NativeHunk} {l : DiffLine}
    (hnh : nh ∈ patch) (hl : l ∈ nh.lines) (hmark : l.origin.isEofMarker = false)
    (ho : l.oldLineno = none) (hn : l.newLineno = none) :
    DiffContent.tryFrom patch = .error (.line .invalid) := by
  unfold DiffContent.tryFrom
  rw [processHunks_bad hnh hl hmark ho hn false false]

/-- C8: for every delta of a patch-converting status (added, deleted or
modified) with its paths available, a native patch containing a line
record with neither an old-side nor a new-side position makes the per-file
conversion return the classification failure; no entry is inserted into
the diff aggregate and no partial hunk is committed, since the error is
raised before any insertion. -/
theorem bad_line_aborts (d : Diff) (r : DeltaRecord) (patch : Patch)
    (nh : NativeHunk) (l : DiffLine) (po pn : PathBuf)
    (hst : r.delta.status = .added ∨ r.delta.status = .deleted
      ∨ r.delta.status = .modified)
    (hp : r.patch = some patch)
    (hop : r.delta.oldFile.path = some po) (hnp : r.delta.newFile.path = some pn)
    (hnh : nh ∈ patch) (hl : l ∈ nh.lines)
    (hmark : l.origin.isEofMarker = false)
    (ho : l.oldLineno = none) (hn : l.newLineno = none) :
    handleDelta d r = .error (.hunk (.line .invalid)) := by
  have htf := diffcontent_tryFrom_bad hnh hl hmark ho hn
  rcases hst with hst | hst | hst <;>
    simp [handleDelta, hst, created, deleted, modified, hop, hnp, hp, htf]

/-- Witness for C8 at a concrete positionless line. -/
theorem bad_line_aborts_witness :
    handleDelta ⟨[], [], [], [], [], ⟨0, 0, 0⟩⟩
        ⟨⟨.modified, ⟨some "a", false⟩, ⟨some "a", false⟩⟩,
          some [⟨⟨[]⟩, [⟨.context, none, none, ⟨[]⟩⟩]⟩]⟩
      = .error (.hunk (.line .invalid)) :=
  bad_line_aborts ⟨[], [], [], [], [], ⟨0, 0, 0⟩⟩
    ⟨⟨.modified, ⟨some "a", false⟩, ⟨some "a", false⟩⟩,
      some [⟨⟨[]⟩, [⟨.context, none, none, ⟨[]⟩⟩]⟩]⟩
    [⟨⟨[]⟩, [⟨.context, none, none, ⟨[]⟩⟩]⟩]
    ⟨⟨[]⟩, [⟨.context, none, none, ⟨[]⟩⟩]⟩
    ⟨.context, none, none, ⟨[]⟩⟩ "a" "a"
    (Or.inr (Or.inr rfl)) rfl rfl rfl (by simp) (by simp) rfl rfl rfl

/-! ### Delta classification (C9) -/

/-- The five delta statuses the adapter handles. -/
def handledStatus : Delta → Bool
  | .added | .deleted | .modified | .renamed | .copied => true
  | _ => false

/-- The content the adapter attaches for one delta, following the helper
bodies: a present patch is converted, an absent patch yields `Binary` for
binary files and nothing (an error) otherwise. -/
def contentOf (r : DeltaRecord) (file : DiffFile) : Option DiffContent :=
  match r.patch with
  | some p => (DiffContent.tryFrom p).toOption
  | none => if file.isBinary then some .binary else none

/-- The created entry contributed by one delta, if any. -/
def createdOptOf (r : DeltaRecord) : Option (PathBuf × DiffContent) :=
  if r.delta.status = .added then
    r.delta.newFile.path.bind
      (fun p => (contentOf r r.delta.newFile).map (fun c => (p, c)))
  else none

/-- The deleted entry contributed by one delta, if any (old-side path). -/
def deletedOptOf (r : DeltaRecord) : Option (PathBuf × DiffContent) :=
  if r.delta.status = .deleted then
    r.delta.oldFile.path.bind
      (fun p => (contentOf r r.delta.oldFile).map (fun c => (p, c)))
  else none

/-- The modified entry contributed by one delta, if any (new-side path). -/
def modifiedOptOf (r : DeltaRecord) : Option (PathBuf × DiffContent) :=
  if r.delta.status = .modified then
    r.delta.newFile.path.bind
      (fun p => (contentOf r r.delta.newFile).map (fun c => (p, c)))
  else none

/-- The moved pair contributed by one delta, if any: a renamed delta
records only the path pair, no content diff. -/
def movedOptOf (r : DeltaRecord) : Option (PathBuf × PathBuf) :=
  if r.delta.status = .renamed then
    match r.delta.oldFile.path, r.delta.newFile.path with
    | some o, some n => some (o, n)
    | _, _ => none
  else none

/-- The copied pair contributed by one delta, if any. -/
def copiedOptOf (r : DeltaRecord) : Option (PathBuf × PathBuf) :=
  if r.delta.status = .copied then
    match r.delta.oldFile.path, r.delta.newFile.path with
    | some o, some n => some (o, n)
    | _, _ => none
  else none

def createdOfDeltas (rs : List DeltaRecord) : List (PathBuf × DiffContent) :=
  rs.filterMap createdOptOf

def deletedOfDeltas (rs : List DeltaRecord) : List (PathBuf × DiffContent) :=
  rs.filterMap deletedOptOf

def modifiedOfDeltas (rs : List DeltaRecord) : List (PathBuf × DiffContent) :=
  rs.filterMap modifiedOptOf

def movedOfDeltas (rs : List DeltaRecord) : List (PathBuf × PathBuf) :=
  rs.filterMap movedOptOf

def copiedOfDeltas (rs : List DeltaRecord) : List (PathBuf × PathBuf) :=
  rs.filterMap copiedOptOf

theorem filterMap_cons_toList {α β : Type} (f : α → Option β) (r : α) (rs : List α) :
    List.filterMap f (r :: rs) = (f r).toList ++ List.filterMap f rs := by
  cases h : f r <;> simp [List.filterMap_cons, h]

/-- Characterisation of one successful dispatch step. -/
theorem handleDelta_ok {acc d2 : Diff} {r : DeltaRecord}
    (h : handleDelta acc r = .ok d2) :
    handledStatus r.delta.status = true
    ∧ d2.created = acc.created ++ (createdOptOf r).toList
    ∧ d2.deleted = acc.deleted ++ (deletedOptOf r).toList
    ∧ d2.modified = acc.modified ++ (modifiedOptOf r).toList
    ∧ d2.moved = acc.moved ++ (movedOptOf r).toList
    ∧ d2.copied = acc.copied ++ (copiedOptOf r).toList
    ∧ d2.stats = acc.stats := by
  cases hst : r.delta.status <;> simp only [handleDelta, hst] at h
  case unmodified => simp at h
  case ignored => simp at h
  case untracked => simp at h
  case typechange => simp at h
  case unreadable => simp at h
  case conflicted => simp at h
  case added =>
    cases hpath : r.delta.newFile.path with
    | none => simp [created, hpath] at h
    | some p =>
      cases hpatch : r.patch with
      | some patch =>
        cases htf : DiffContent.tryFrom patch with
        | error e => simp [created, hpath, hpatch, htf] at h
        | ok c =>
          simp [created, hpath, hpatch, htf] at h
          subst h
          simp [Diff.insertAdded, handledStatus, hst, createdOptOf, deletedOptOf,
            modifiedOptOf, movedOptOf, copiedOptOf, contentOf, hpath, hpatch, htf,
            Except.toOption, Option.toList]
      | none =>
        cases hbin : r.delta.newFile.isBinary with
        | true =>
          simp [created, hpath, hpatch, hbin] at h
          subst h
          simp [Diff.insertAdded, handledStatus, hst, createdOptOf, deletedOptOf,
            modifiedOptOf, movedOptOf, copiedOptOf, contentOf, hpath, hpatch, hbin]
        | false => simp [created, hpath, hpatch, hbin] at h
  case deleted =>
    cases hpath : r.delta.oldFile.path with
    | none => simp [Git.deleted, hpath] at h
    | some p =>
      cases hpatch : r.patch with
      | some patch =>
        cases htf : DiffContent.tryFrom patch with
        | error e => simp [Git.deleted, hpath, hpatch, htf] at h
        | ok c =>
          simp [Git.deleted, hpath, hpatch, htf] at h
          subst h
          simp [Diff.insertDeleted, handledStatus, hst, createdOptOf, deletedOptOf,
            modifiedOptOf, movedOptOf, copiedOptOf, contentOf, hpath, hpatch, htf,
            Except.toOption, Option.toList]
      | none =>
        cases hbin : r.delta.oldFile.isBinary with
        | true =>
          simp [Git.deleted, hpath, hpatch, hbin] at h
          subst h
          simp [Diff.insertDeleted, handledStatus, hst, createdOptOf, deletedOptOf,
            modifiedOptOf, movedOptOf, copiedOptOf, contentOf, hpath, hpatch, hbin]
        | false => simp [Git.deleted, hpath, hpatch, hbin] at h
  case modified =>
    cases hpath : r.delta.newFile.path with
    | none => simp [Git.modified, hpath] at h
    | some p =>
      cases hpatch : r.patch with
      | some patch =>
        cases htf : DiffContent.tryFrom patch with
        | error e => simp [Git.modified, hpath, hpatch, htf] at h
        | ok c =>
          simp [Git.modified, hpath, hpatch, htf] at h
          subst h
          simp [Diff.insertModified, handledStatus, hst, createdOptOf, deletedOptOf,
            modifiedOptOf, movedOptOf, copiedOptOf, contentOf, hpath, hpatch, htf,
            Except.toOption, Option.toList]
      | none =>
        cases hbin : r.delta.newFile.isBinary with
        | true =>
          simp [Git.modified, hpath, hpatch, hbin] at h
          subst h
          simp [Diff.insertModified, handledStatus, hst, createdOptOf, deletedOptOf,
            modifiedOptOf, movedOptOf, copiedOptOf, contentOf, hpath, hpatch, hbin]
        | false => simp [Git.modified, hpath, hpatch, hbin] at h
  case renamed =>
    cases hold : r.delta.oldFile.path with
    | none => simp [Git.renamed, hold] at h
    | some o =>
      cases hnew : r.delta.newFile.path with
      | none => simp [Git.renamed, hold, hnew] at h
      | some n =>
        simp [Git.renamed, hold, hnew] at h
        subst h
        simp [Diff.insertMoved, handledStatus, hst, createdOptOf, deletedOptOf,
          modifiedOptOf, movedOptOf, copiedOptOf, hold, hnew]
  case copied =>
    cases hold : r.delta.oldFile.path with
    | none => simp [Git.copied, hold] at h
    | some o =>
      cases hnew : r.delta.newFile.path with
      | none => simp [Git.copied, hold, hnew] at h
      | some n =>
        simp [Git.copied, hold, hnew] at h
        subst h
        simp [Diff.insertCopied, handledStatus, hst, createdOptOf, deletedOptOf,
          modifiedOptOf, movedOptOf, copiedOptOf, hold, hnew]

/-- Characterisation of a successful run over a delta list. -/
theorem processDeltas_ok {rs : List DeltaRecord} {acc d : Diff}
    (h : processDeltas acc rs = .ok d) :
    d.created = acc.created ++ createdOfDeltas rs
    ∧ d.deleted = acc.deleted ++ deletedOfDeltas rs
    ∧ d.modified = acc.modified ++ modifiedOfDeltas rs
    ∧ d.moved = acc.moved ++ movedOfDeltas rs
    ∧ d.copied = acc.copied ++ copiedOfDeltas rs
    ∧ d.stats = acc.stats
    ∧ ∀ r ∈ rs, handledStatus r.delta.status = true := by
  induction rs generalizing acc with
  | nil =>
      simp [processDeltas] at h
      subst h
      simp [createdOfDeltas, deletedOfDeltas, modifiedOfDeltas, movedOfDeltas,
        copiedOfDeltas]
  | cons r rs ih =>
      simp only [processDeltas] at h
      cases hh : handleDelta acc r with
      | error e => rw [hh] at h; simp at h
      | ok d2 =>
        simp only [hh] at h
        obtain ⟨k1, k2, k3, k4, k5, k6, k7⟩ := handleDelta_ok hh
        obtain ⟨j1, j2, j3, j4, j5, j6, j7⟩ := ih h
        refine ⟨?_, ?_, ?_, ?_, ?_, ?_, ?_⟩
        · simp only [j1, k2, createdOfDeltas, filterMap_cons_toList, List.append_assoc]
        · simp only [j2, k3, deletedOfDeltas, filterMap_cons_toList, List.append_assoc]
        · simp only [j3, k4, modifiedOfDeltas, filterMap_cons_toList, List.append_assoc]
        · simp only [j4, k5, movedOfDeltas, filterMap_cons_toList, List.append_assoc]
        · simp only [j5, k6, copiedOfDeltas, filterMap_cons_toList, List.append_assoc]
        · simp only [j6, k7]
        · intro x hx
          rcases List.mem_cons.mp hx with rfl | hx2
          · exact k1
          · exact j7 x hx2

/-- An unhandled status fails immediately with `DeltaUnhandled`. -/
theorem handleDelta_unhandled {d : Diff} {r : DeltaRecord}
    (h : handledStatus r.delta.status = false) :
    handleDelta d r = .error (.deltaUnhandled r.delta.status) := by
  cases hst : r.delta.status <;>
    simp [handledStatus, hst] at h ⊢ <;> simp [handleDelta, hst]

theorem processDeltas_append (acc : Diff) (xs ys : List DeltaRecord) :
    processDeltas acc (xs ++ ys)
      = match processDeltas acc xs with
        | .error e => .error e
        | .ok d2 => processDeltas d2 ys := by
  induction xs generalizing acc with
  | nil => simp [processDeltas]
  | cons r rs ih =>
      simp only [List.cons_append, processDeltas]
      cases hh : handleDelta acc r with
      | error e => rfl
      | ok d2 => exact ih d2

/-- C9: the backend delta classification.  If the whole conversion
succeeds, created holds exactly the added deltas (new path, converted
content), deleted the deleted deltas (old path), modified the modified
deltas, moved the renamed deltas as path pairs with no content diff,
copied the copied deltas as path pairs, the stats are the backend's, and
every delta had one of the five handled statuses.  A delta of any other
status is never skipped or defaulted: its presence forces the conversion
to fail, and when the deltas before it process successfully the failure
is precisely the `DeltaUnhandled` error carrying that status. -/
theorem delta_classification (g : GitDiff) :
    (∀ d : Diff, Diff.tryFrom g = .ok d →
      d.created = createdOfDeltas g.deltas
      ∧ d.deleted = deletedOfDeltas g.deltas
      ∧ d.modified = modifiedOfDeltas g.deltas
      ∧ d.moved = movedOfDeltas g.deltas
      ∧ d.copied = copiedOfDeltas g.deltas
      ∧ d.stats = g.stats
      ∧ ∀ r ∈ g.deltas, handledStatus r.delta.status = true)
    ∧ (∀ r ∈ g.deltas, handledStatus r.delta.status = false →
        ∃ e, Diff.tryFrom g = .error e)
    ∧ (∀ (i : Nat) (hi : i < g.deltas.length) (d2 : Diff),
        processDeltas ⟨[], [], [], [], [], g.stats⟩ (g.deltas.take i) = .ok d2 →
        handledStatus (g.deltas.get ⟨i, hi⟩).delta.status = false →
        Diff.tryFrom g
          = .error (.deltaUnhandled (g.deltas.get ⟨i, hi⟩).delta.status)) := by
  refine ⟨?_, ?_, ?_⟩
  · intro d htf
    obtain ⟨j1, j2, j3, j4, j5, j6, j7⟩ := processDeltas_ok htf
    simpa using ⟨j1, j2, j3, j4, j5, j6, j7⟩
  · intro r hr hbad
    cases htf : Diff.tryFrom g with
    | ok d =>
        exfalso
        have := (processDeltas_ok htf).2.2.2.2.2.2 r hr
        rw [hbad] at this
        exact Bool.false_ne_true this
    | error e => exact ⟨e, rfl⟩
  · intro i hi d2 hpre hbad
    rw [Diff.tryFrom]
    conv_lhs => rw [← List.take_append_drop i g.deltas]
    rw [processDeltas_append, hpre]
    have hdrop : g.deltas.drop i = g.deltas.get ⟨i, hi⟩ :: g.deltas.drop (i + 1) := by
      rw [List.get_eq_getElem]
      exact List.drop_eq_getElem_cons hi
    rw [hdrop]
    simp only [processDeltas]
    rw [handleDelta_unhandled hbad]

/-- Witness for C9 at a one-delta diff with an unhandled status. -/
theorem delta_classification_witness :
    (∃ e, Diff.tryFrom ⟨[⟨⟨.typechange, ⟨some "a", false⟩, ⟨some "a", false⟩⟩, none⟩],
        ⟨0, 0, 0⟩⟩ = .error e) :=
  (delta_classification ⟨[⟨⟨.typechange, ⟨some "a", false⟩, ⟨some "a", false⟩⟩, none⟩],
      ⟨0, 0, 0⟩⟩).2.1
    ⟨⟨.typechange, ⟨some "a", false⟩, ⟨some "a", false⟩⟩, none⟩ (by simp) rfl

end Git

end RadicleSurf
